import Mathlib

/-!
A sequential model of go-sse: the dispatcher, the channels and the clients.

The development embeds `sse.go`, `channel.go` and `client.go`.

* Go pointers to `Client` are addresses (`Ptr`) into a `Heap`; a channel's membership map
  `clients.m` maps a uuid to an address, exactly as `map[string]*Client` does.
* A `*Channel` is held by value in the topic table; a method that changes the channel object
  writes the new value back under the key the object was found at.
* A Go `chan *Message` is seen by a sequential observer as the list of messages handed to
  its receiver so far together with a closed flag.  Sending on a closed channel and closing
  a closed channel are the two Go runtime panics that the code can raise; they are the
  `Fault` results of the model.
* Go maps are association lists.  `range` over a map visits the entries of a snapshot in
  list order (Go leaves the order unspecified) and skips entries deleted meanwhile.
* Locks and logging have no effect on a sequential run and are left out.
-/

namespace Sse

/-! ## Data model -/

/-- Modelled from the spec: the `Message` type, whose declaration (`message.go`) is not
among the sources.  The spec gives it an identifier, a payload, an event type and a retry
hint; the code reads `message.id` and writes `msg.retry`. -/
structure Message where
  id : String
  data : String
  event : String
  retry : Int
deriving DecidableEq, Repr

/-- Modelled from the spec: `NewMessage(id, data, event)` as the tests call it; the retry
hint is left at zero until the transport overwrites it. -/
def NewMessage (id data event : String) : Message :=
  { id := id, data := data, event := event, retry := 0 }

/-- The Go runtime panics that channel operations can raise. -/
inductive Fault where
  | sendOnClosedChannel
  | closeOfClosedChannel
deriving DecidableEq, Repr

/-- The error values of the package (`errChannelWithoutClients`). -/
inductive Error where
  | errChannelWithoutClients
deriving DecidableEq, Repr

/-- A `chan *Message`: the messages handed over so far, oldest first, and whether the
channel has been closed. -/
structure MsgChan where
  queue : List Message
  closed : Bool
deriving DecidableEq, Repr

/-- The result of `make(chan *Message)`. -/
def MsgChan.make : MsgChan :=
  { queue := [], closed := false }

/-- Go `ch <- m`: panics on a closed channel, otherwise hands `m` over. -/
def MsgChan.send (c : MsgChan) (m : Message) : Except Fault MsgChan :=
  if c.closed then .error .sendOnClosedChannel
  else .ok { c with queue := c.queue ++ [m] }

/-- Go `close(ch)`: panics on a closed channel. -/
def MsgChan.close (c : MsgChan) : Except Fault MsgChan :=
  if c.closed then .error .closeOfClosedChannel
  else .ok { c with closed := true }

/-- A control channel of the server (`chan *Client`, `chan bool`, `chan string`): it is
unbuffered, so only its closed flag is state. -/
structure CtlChan where
  closed : Bool
deriving DecidableEq, Repr

/-- Go `close(ch)` on a control channel. -/
def CtlChan.close (c : CtlChan) : Except Fault CtlChan :=
  if c.closed then .error .closeOfClosedChannel
  else .ok { closed := true }

/-- The `Client` struct of `client.go`. -/
structure Client where
  uuid : String
  lastEventID : String
  channel : String
  send : MsgChan
deriving DecidableEq, Repr

/-- Addresses of `Client` objects. -/
abbrev Ptr := Nat

/-- The store of `Client` objects. -/
abbrev Heap := Ptr → Client

/-- Overwrite the object at address `p`. -/
def Heap.set (h : Heap) (p : Ptr) (c : Client) : Heap :=
  fun q => if q = p then c else h q

/-! ## Go maps as association lists -/

/-- Go `m[k]` with the comma-ok form. -/
def mapGet {V : Type} (m : List (String × V)) (k : String) : Option V :=
  match m with
  | [] => none
  | (k', v) :: rest => if k' = k then some v else mapGet rest k

/-- Go `delete(m, k)`. -/
def mapDelete {V : Type} (m : List (String × V)) (k : String) : List (String × V) :=
  match m with
  | [] => []
  | (k', v) :: rest => if k' = k then mapDelete rest k else (k', v) :: mapDelete rest k

/-- Go `m[k] = v`: an existing entry is overwritten where it stands, a new key gets a new
entry. -/
def mapSet {V : Type} (m : List (String × V)) (k : String) (v : V) : List (String × V) :=
  match m with
  | [] => [(k, v)]
  | (k', v') :: rest => if k' = k then (k, v) :: rest else (k', v') :: mapSet rest k v

/-- The keys of a map, in iteration order. -/
def mapKeys {V : Type} (m : List (String × V)) : List String :=
  m.map Prod.fst

/-! ## client.go -/

/-- Embeds `newClient(lastEventID, channel)`; the uuid comes from the identity provider. -/
def newClient (uuid lastEventID channel : String) : Client :=
  { uuid := uuid, lastEventID := lastEventID, channel := channel, send := MsgChan.make }

/-- Embeds `Client.SendMessage`: record the id, then send on the client's queue. -/
def Client.SendMessage (c : Client) (message : Message) : Except Fault Client :=
  let c1 := { c with lastEventID := message.id }
  match c1.send.send message with
  | .error e => .error e
  | .ok q => .ok { c1 with send := q }

/-- Embeds `Client.Channel`. -/
def Client.Channel (c : Client) : String :=
  c.channel

/-- Embeds `Client.LastEventID`. -/
def Client.LastEventID (c : Client) : String :=
  c.lastEventID

/-! ## channel.go -/

/-- The `Channel` struct of `channel.go`; `clients` is `clients.m`. -/
structure Channel where
  name : String
  lastEventID : String
  clients : List (String × Ptr)
deriving DecidableEq, Repr

/-- Embeds `newChannel(name)`. -/
def newChannel (name : String) : Channel :=
  { name := name, lastEventID := "", clients := [] }

/-- The loop `for _, client := range c.clients.m { client.send <- message }`. -/
def sendAll (message : Message) : List (String × Ptr) → Heap → Except Fault Heap
  | [], h => .ok h
  | (_, p) :: rest, h =>
    match (h p).send.send message with
    | .error e => .error e
    | .ok q => sendAll message rest (h.set p { h p with send := q })

/-- Embeds `Channel.SendBroadcastMessage`. -/
def Channel.SendBroadcastMessage (c : Channel) (message : Message) (h : Heap) :
    Except Fault (Channel × Heap) :=
  let c1 := { c with lastEventID := message.id }
  match sendAll message c1.clients h with
  | .error e => .error e
  | .ok h1 => .ok (c1, h1)

/-- The loop of `Channel.SendMessageToClients` over the given uuids. -/
def sendSome (message : Message) (m : List (String × Ptr)) : List String → Heap → Except Fault Heap
  | [], h => .ok h
  | uuid :: rest, h =>
    match mapGet m uuid with
    | none => sendSome message m rest h
    | some p =>
      match (h p).send.send message with
      | .error e => .error e
      | .ok q => sendSome message m rest (h.set p { h p with send := q })

/-- Embeds `Channel.SendMessageToClients`. -/
def Channel.SendMessageToClients (c : Channel) (message : Message) (uuids : List String)
    (h : Heap) : Except Fault (Channel × Heap) :=
  let c1 := { c with lastEventID := message.id }
  match sendSome message c1.clients uuids h with
  | .error e => .error e
  | .ok h1 => .ok (c1, h1)

/-- Embeds `Channel.ClientCount`. -/
def Channel.ClientCount (c : Channel) : Nat :=
  c.clients.length

/-- Embeds `Channel.LastEventID`. -/
def Channel.LastEventID (c : Channel) : String :=
  c.lastEventID

/-- Embeds `Channel.addClient`: `c.clients.m[client.uuid] = client`. -/
def Channel.addClient (c : Channel) (client : Ptr) (h : Heap) : Channel :=
  { c with clients := mapSet c.clients (h client).uuid client }

/-- Embeds `Channel.removeClient`: when the uuid is present, close that client's queue and delete
the entry. -/
def Channel.removeClient (c : Channel) (uuid : String) (h : Heap) :
    Except Fault (Channel × Heap) :=
  match mapGet c.clients uuid with
  | none => .ok (c, h)
  | some p =>
    match (h p).send.close with
    | .error e => .error e
    | .ok q => .ok ({ c with clients := mapDelete c.clients uuid }, h.set p { h p with send := q })

/-- The loop of `Channel.Close` over the uuids of a snapshot of the membership map. -/
def closeLoop : List String → Channel → Heap → Except Fault (Channel × Heap)
  | [], c, h => .ok (c, h)
  | uuid :: rest, c, h =>
    match c.removeClient uuid h with
    | .error e => .error e
    | .ok (c1, h1) => closeLoop rest c1 h1

/-- Embeds `Channel.Close`. -/
def Channel.Close (c : Channel) (h : Heap) : Except Fault (Channel × Heap) :=
  closeLoop (mapKeys c.clients) c h

/-! ## sse.go -/

/-- The `Server` struct of `sse.go` without its lock and options. -/
structure Server where
  channels : List (String × Channel)
  addClient : CtlChan
  removeClient : CtlChan
  shutdown : CtlChan
  closeChannel : CtlChan
deriving DecidableEq, Repr

/-- Embeds `NewServer`: an empty topic table and four open control channels. -/
def NewServer : Server :=
  { channels := [], addClient := ⟨false⟩, removeClient := ⟨false⟩, shutdown := ⟨false⟩,
    closeChannel := ⟨false⟩ }

/-- Embeds `Server.getChannel`. -/
def Server.getChannel (s : Server) (name : String) : Option Channel :=
  mapGet s.channels name

/-- Embeds `Server.HasChannel`. -/
def Server.HasChannel (s : Server) (name : String) : Bool :=
  (s.getChannel name).isSome

/-- Embeds `Server.GetChannel`. -/
def Server.GetChannel (s : Server) (name : String) : Option Channel :=
  s.getChannel name

/-- Embeds `Server.Channels`. -/
def Server.Channels (s : Server) : List String :=
  mapKeys s.channels

/-- Embeds `Server.ClientCount`. -/
def Server.ClientCount (s : Server) : Nat :=
  (s.channels.map (fun e => e.2.ClientCount)).sum

/-- Embeds `Server.addChannel`. -/
def Server.addChannel (s : Server) (name : String) : Server × Channel :=
  let ch := newChannel name
  ({ s with channels := mapSet s.channels ch.name ch }, ch)

/-- Embeds `Server.removeChannel`: delete the table entry named `ch.name`, then close `ch`. -/
def Server.removeChannel (s : Server) (ch : Channel) (h : Heap) : Except Fault (Server × Heap) :=
  let s1 := { s with channels := mapDelete s.channels ch.name }
  match ch.Close h with
  | .error e => .error e
  | .ok (_, h1) => .ok (s1, h1)

/-- The loop of `Server.close` over a snapshot of the table; an entry deleted before it is
reached is not visited. -/
def closeAll : List String → Server → Heap → Except Fault (Server × Heap)
  | [], s, h => .ok (s, h)
  | name :: rest, s, h =>
    match mapGet s.channels name with
    | none => closeAll rest s h
    | some ch =>
      match s.removeChannel ch h with
      | .error e => .error e
      | .ok (s1, h1) => closeAll rest s1 h1

/-- Embeds `Server.close`. -/
def Server.close (s : Server) (h : Heap) : Except Fault (Server × Heap) :=
  closeAll (mapKeys s.channels) s h

/-- Embeds `Server.SendBroadcastMessage`; the channel object is updated in place. -/
def Server.SendBroadcastMessage (s : Server) (channel : String) (message : Message) (h : Heap) :
    Except Fault (Option Error × Server × Heap) :=
  match s.getChannel channel with
  | some ch =>
    match ch.SendBroadcastMessage message h with
    | .error e => .error e
    | .ok (ch1, h1) => .ok (none, { s with channels := mapSet s.channels channel ch1 }, h1)
  | none => .ok (some .errChannelWithoutClients, s, h)

/-- Embeds `Server.SendMessageToClients`. -/
def Server.SendMessageToClients (s : Server) (channel : String) (uuids : List String)
    (message : Message) (h : Heap) : Except Fault (Option Error × Server × Heap) :=
  match s.getChannel channel with
  | some ch =>
    match ch.SendMessageToClients message uuids h with
    | .error e => .error e
    | .ok (ch1, h1) => .ok (none, { s with channels := mapSet s.channels channel ch1 }, h1)
  | none => .ok (some .errChannelWithoutClients, s, h)

/-- What the `select` of `Server.dispatch` can receive. -/
inductive Event where
  | addClient (c : Ptr)
  | removeClient (c : Ptr)
  | closeChannel (channel : String)
  | shutdown
deriving DecidableEq, Repr

/-- The four `close` calls at the end of the shutdown case. -/
def Server.closeControls (s : Server) : Except Fault Server :=
  match s.addClient.close with
  | .error e => .error e
  | .ok a =>
    match s.removeClient.close with
    | .error e => .error e
    | .ok r =>
      match s.closeChannel.close with
      | .error e => .error e
      | .ok c =>
        match s.shutdown.close with
        | .error e => .error e
        | .ok d => .ok { s with addClient := a, removeClient := r, closeChannel := c, shutdown := d }

/-- One iteration of the loop of `Server.dispatch` on a received event. -/
def Server.dispatch (s : Server) (h : Heap) : Event → Except Fault (Server × Heap)
  | .addClient c =>
    match s.getChannel (h c).channel with
    | some ch =>
      .ok ({ s with channels := mapSet s.channels (h c).channel (ch.addClient c h) }, h)
    | none =>
      let (s1, ch) := s.addChannel (h c).channel
      .ok ({ s1 with channels := mapSet s1.channels ch.name (ch.addClient c h) }, h)
  | .removeClient c =>
    match s.getChannel (h c).channel with
    | none => .ok (s, h)
    | some ch =>
      match ch.removeClient (h c).uuid h with
      | .error e => .error e
      | .ok (ch1, h1) =>
        let s1 := { s with channels := mapSet s.channels (h c).channel ch1 }
        if ch1.ClientCount = 0 then s1.removeChannel ch1 h1 else .ok (s1, h1)
  | .closeChannel channel =>
    match s.getChannel channel with
    | some ch => s.removeChannel ch h
    | none => .ok (s, h)
  | .shutdown =>
    match s.close h with
    | .error e => .error e
    | .ok (s1, h1) =>
      match s1.closeControls with
      | .error e => .error e
      | .ok s2 => .ok (s2, h1)

/-- Embeds `Server.Shutdown`: `s.shutdown <- true`, received by the dispatcher. -/
def Server.Shutdown (s : Server) (h : Heap) : Except Fault (Server × Heap) :=
  if s.shutdown.closed then .error .sendOnClosedChannel else s.dispatch h .shutdown

/-- Embeds `Server.CloseChannel`: `s.closeChannel <- name`, received by the dispatcher. -/
def Server.CloseChannel (s : Server) (name : String) (h : Heap) : Except Fault (Server × Heap) :=
  if s.closeChannel.closed then .error .sendOnClosedChannel else s.dispatch h (.closeChannel name)

/-- Embeds `Server.Restart`: calls `close` directly, not through the dispatcher. -/
def Server.Restart (s : Server) (h : Heap) : Except Fault (Server × Heap) :=
  s.close h

/-- The attach step of `ServeHTTP`: `s.addClient <- c`. -/
def Server.attach (s : Server) (c : Ptr) (h : Heap) : Except Fault (Server × Heap) :=
  if s.addClient.closed then .error .sendOnClosedChannel else s.dispatch h (.addClient c)

/-- The detach step of `ServeHTTP`: `s.removeClient <- c`. -/
def Server.detach (s : Server) (c : Ptr) (h : Heap) : Except Fault (Server × Heap) :=
  if s.removeClient.closed then .error .sendOnClosedChannel else s.dispatch h (.removeClient c)

/-- The structural operations a run of the server is made of. -/
inductive Call where
  | Attach (c : Ptr)
  | Detach (c : Ptr)
  | CloseChannel (name : String)
  | Restart
  | Shutdown
deriving DecidableEq, Repr

/-- Process one structural operation. -/
def Server.call (s : Server) (h : Heap) : Call → Except Fault (Server × Heap)
  | .Attach c => s.attach c h
  | .Detach c => s.detach c h
  | .CloseChannel name => s.CloseChannel name h
  | .Restart => s.Restart h
  | .Shutdown => s.Shutdown h

/-- Process a sequence of structural operations, one after the other. -/
def run : List Call → Server → Heap → Except Fault (Server × Heap)
  | [], s, h => .ok (s, h)
  | c :: rest, s, h =>
    match s.call h c with
    | .error e => .error e
    | .ok (s1, h1) => run rest s1 h1

/-- Successive calls `SendBroadcastMessage(m1)`, ..., `SendBroadcastMessage(mN)` on one
channel, as the loop of `TestSendMessage` makes them. -/
def broadcastSeq : List Message → Channel → Heap → Except Fault (Channel × Heap)
  | [], c, h => .ok (c, h)
  | m :: rest, c, h =>
    match c.SendBroadcastMessage m h with
    | .error e => .error e
    | .ok (c1, h1) => broadcastSeq rest c1 h1

/-- A heap of two clients `A` (address 0) and `B` (any other address) on topic `news`,
both as `newClient` makes them. -/
def demoHeap : Heap :=
  fun p => if p = 0 then newClient "A" "" "news" else newClient "B" "" "news"

/-! ## Well-formedness -/

/-- What `addClient` of connected clients establishes for a membership map and `removeClient`
keeps: the keys are distinct (it is a map), each entry is filed under the uuid of the client
it points to, and each member's queue is open. -/
def MembersOK (h : Heap) (m : List (String × Ptr)) : Prop :=
  (mapKeys m).Nodup ∧ ∀ k p, (k, p) ∈ m → (h p).uuid = k ∧ (h p).send.closed = false

/-- Hand `message` to the clients at the given addresses, one after the other.  Both
broadcast loops are instances of it (`sendAll_eq_deliver`, `sendSome_eq_deliver`). -/
def deliver (message : Message) : List Ptr → Heap → Except Fault Heap
  | [], h => .ok h
  | p :: rest, h =>
    match (h p).send.send message with
    | .error e => .error e
    | .ok q => deliver message rest (h.set p { h p with send := q })

/-- The client object `c` after `n` more copies of `message` went through its queue. -/
def Client.received (c : Client) (message : Message) (n : Nat) : Client :=
  { c with send := { c.send with queue := c.send.queue ++ List.replicate n message } }

/-- The heaps `h` and `h'` hold the same clients: uuid and topic of every object agree (no
code of the package writes these two fields after `newClient`). -/
def SameIds (h h' : Heap) : Prop :=
  ∀ q, (h' q).uuid = (h q).uuid ∧ (h' q).channel = (h q).channel

/-- The channel `ch` filed under `n` in the topic table is in order: it carries that name,
has at least one member, its membership map has distinct keys, and each entry is filed under
the uuid of a client whose topic is `n`. -/
def ChannelOK (h : Heap) (n : String) (ch : Channel) : Prop :=
  ch.name = n ∧ ch.clients ≠ [] ∧ (mapKeys ch.clients).Nodup ∧
    ∀ k p, (k, p) ∈ ch.clients → (h p).uuid = k ∧ (h p).channel = n

/-- The topic table is in order: distinct keys, and every channel in it is in order. -/
def TableOK (h : Heap) (t : List (String × Channel)) : Prop :=
  (mapKeys t).Nodup ∧ ∀ n ch, (n, ch) ∈ t → ChannelOK h n ch

/-- The servers `s` and `s'` have the same control channels. -/
def SameControls (s s' : Server) : Prop :=
  s'.addClient = s.addClient ∧ s'.removeClient = s.removeClient ∧
    s'.shutdown = s.shutdown ∧ s'.closeChannel = s.closeChannel

/-- The addresses of the members of a channel. -/
def Channel.members (c : Channel) : List Ptr :=
  c.clients.map Prod.snd

/-- The addresses of the members of all channels of a topic table. -/
def membersOf : List (String × Channel) → List Ptr
  | [] => []
  | (_, ch) :: rest => ch.members ++ membersOf rest

/-- The heap `h` after the queues of the clients at the addresses `ps` have been closed. -/
def closeAt (h : Heap) (ps : List Ptr) : Heap :=
  fun q => if q ∈ ps then { h q with send := { (h q).send with closed := true } } else h q

/-- The clients handed to `Attach` in a sequence of operations. -/
def attached : List Call → List Ptr
  | [] => []
  | .Attach c :: rest => c :: attached rest
  | .Detach _ :: rest => attached rest
  | .CloseChannel _ :: rest => attached rest
  | .Restart :: rest => attached rest
  | .Shutdown :: rest => attached rest

/-- The dispatcher is running: none of the four control channels has been closed. -/
def Running (s : Server) : Prop :=
  s.addClient.closed = false ∧ s.removeClient.closed = false ∧
    s.shutdown.closed = false ∧ s.closeChannel.closed = false

/-- The state of a run in which no client was attached twice; `used` lists the clients
attached so far.  The topic table is in order, every member has been attached and its queue
is open, and the queue of every client not attached yet is open. -/
def FreshOK (h : Heap) (s : Server) (used : List Ptr) : Prop :=
  TableOK h s.channels ∧
    (∀ p, p ∈ membersOf s.channels → (h p).send.closed = false ∧ p ∈ used) ∧
    (∀ p, p ∉ used → (h p).send.closed = false)

/-! ## Maps -/

theorem mapGet_eq_none_iff {V : Type} (m : List (String × V)) (k : String) :
    mapGet m k = none ↔ k ∉ mapKeys m := by
  induction m with
  | nil => simp [mapGet, mapKeys]
  | cons e rest ih =>
    obtain ⟨k', v⟩ := e
    by_cases hk : k' = k
    · simp [mapGet, mapKeys, hk]
    · have hk' : ¬ k = k' := fun e => hk e.symm
      simp only [mapKeys] at ih
      simp [mapGet, mapKeys, hk, hk', ih]

theorem mapGet_some_mem {V : Type} (m : List (String × V)) (k : String) (v : V)
    (hg : mapGet m k = some v) : (k, v) ∈ m := by
  induction m with
  | nil => simp [mapGet] at hg
  | cons e rest ih =>
    obtain ⟨k', v'⟩ := e
    by_cases hk : k' = k
    · simp [mapGet, hk] at hg
      simp [hk, hg]
    · simp [mapGet, hk] at hg
      exact List.mem_cons_of_mem _ (ih hg)

theorem mapGet_of_mem {V : Type} (m : List (String × V)) (k : String) (v : V)
    (hnd : (mapKeys m).Nodup) (hm : (k, v) ∈ m) : mapGet m k = some v := by
  induction m with
  | nil => simp at hm
  | cons e rest ih =>
    obtain ⟨k', v'⟩ := e
    simp only [mapKeys, List.map_cons, List.nodup_cons] at hnd
    rcases List.mem_cons.1 hm with heq | hin
    · cases heq
      simp [mapGet]
    · have hne : k' ≠ k := by
        intro e
        apply hnd.1
        rw [e]
        exact List.mem_map_of_mem Prod.fst hin
      simp only [mapGet, hne, if_false]
      exact ih hnd.2 hin

theorem mem_mapDelete {V : Type} (m : List (String × V)) (k : String) (e : String × V) :
    e ∈ mapDelete m k ↔ e ∈ m ∧ e.1 ≠ k := by
  induction m with
  | nil => simp [mapDelete]
  | cons e' rest ih =>
    obtain ⟨k', v'⟩ := e'
    by_cases hk : k' = k
    · simp only [mapDelete, hk, if_true, ih, List.mem_cons]
      constructor
      · rintro ⟨h1, h2⟩
        exact ⟨Or.inr h1, h2⟩
      · rintro ⟨h1 | h1, h2⟩
        · exact absurd (by rw [h1]) h2
        · exact ⟨h1, h2⟩
    · simp only [mapDelete, hk, if_false, List.mem_cons, ih]
      constructor
      · rintro (h1 | ⟨h1, h2⟩)
        · exact ⟨Or.inl h1, by rw [h1]; exact hk⟩
        · exact ⟨Or.inr h1, h2⟩
      · rintro ⟨h1 | h1, h2⟩
        · exact Or.inl h1
        · exact Or.inr ⟨h1, h2⟩

theorem mapGet_mapDelete_self {V : Type} (m : List (String × V)) (k : String) :
    mapGet (mapDelete m k) k = none := by
  induction m with
  | nil => simp [mapDelete, mapGet]
  | cons e rest ih =>
    obtain ⟨k', v⟩ := e
    by_cases hk : k' = k
    · simp [mapDelete, hk, ih]
    · simp [mapDelete, mapGet, hk, ih]

theorem mapGet_mapDelete_ne {V : Type} (m : List (String × V)) (k k' : String) (hne : k' ≠ k) :
    mapGet (mapDelete m k) k' = mapGet m k' := by
  induction m with
  | nil => simp [mapDelete]
  | cons e rest ih =>
    obtain ⟨k0, v⟩ := e
    by_cases hk : k0 = k
    · subst hk
      have h0 : ¬ k0 = k' := fun e => hne e.symm
      simp [mapDelete, mapGet, h0, ih]
    · by_cases hk' : k0 = k'
      · subst hk'
        simp [mapDelete, mapGet, hk]
      · simp [mapDelete, mapGet, hk, hk', ih]

theorem mapDelete_absent {V : Type} (m : List (String × V)) (k : String)
    (hg : mapGet m k = none) : mapDelete m k = m := by
  induction m with
  | nil => simp [mapDelete]
  | cons e rest ih =>
    obtain ⟨k', v⟩ := e
    by_cases hk : k' = k
    · simp [mapGet, hk] at hg
    · simp only [mapGet, hk, if_false] at hg
      simp [mapDelete, hk, ih hg]

theorem mapKeys_mapDelete_sublist {V : Type} (m : List (String × V)) (k : String) :
    (mapKeys (mapDelete m k)).Sublist (mapKeys m) := by
  induction m with
  | nil => simp [mapDelete, mapKeys]
  | cons e rest ih =>
    obtain ⟨k', v⟩ := e
    by_cases hk : k' = k
    · simp only [mapDelete, hk, if_true, mapKeys, List.map_cons]
      exact List.Sublist.cons _ ih
    · simp only [mapDelete, hk, if_false, mapKeys, List.map_cons]
      exact List.Sublist.cons₂ _ ih

theorem mapKeys_mapDelete_nodup {V : Type} (m : List (String × V)) (k : String)
    (hnd : (mapKeys m).Nodup) : (mapKeys (mapDelete m k)).Nodup :=
  List.Nodup.sublist (mapKeys_mapDelete_sublist m k) hnd

theorem not_mem_mapKeys_mapDelete {V : Type} (m : List (String × V)) (k : String) :
    k ∉ mapKeys (mapDelete m k) :=
  (mapGet_eq_none_iff _ _).1 (mapGet_mapDelete_self m k)

theorem mem_mapSet {V : Type} (m : List (String × V)) (k : String) (v : V) (e : String × V)
    (he : e ∈ mapSet m k v) : e = (k, v) ∨ e ∈ m := by
  induction m with
  | nil =>
    simp only [mapSet, List.mem_singleton] at he
    exact Or.inl he
  | cons e' rest ih =>
    obtain ⟨k', v'⟩ := e'
    by_cases hk : k' = k
    · simp only [mapSet, hk, if_true, List.mem_cons] at he
      rcases he with he | he
      · exact Or.inl he
      · exact Or.inr (List.mem_cons_of_mem _ he)
    · simp only [mapSet, hk, if_false, List.mem_cons] at he
      rcases he with he | he
      · exact Or.inr (by rw [he]; exact List.mem_cons_self _ _)
      · rcases ih he with h1 | h1
        · exact Or.inl h1
        · exact Or.inr (List.mem_cons_of_mem _ h1)

theorem mem_mapKeys_mapSet {V : Type} (m : List (String × V)) (k : String) (v : V) (a : String)
    (ha : a ∈ mapKeys (mapSet m k v)) : a = k ∨ a ∈ mapKeys m := by
  obtain ⟨e, he, hfst⟩ := List.mem_map.1 ha
  rcases mem_mapSet m k v e he with h1 | h1
  · left
    rw [← hfst, h1]
  · right
    rw [← hfst]
    exact List.mem_map_of_mem Prod.fst h1

theorem mapKeys_mapSet_nodup {V : Type} (m : List (String × V)) (k : String) (v : V)
    (hnd : (mapKeys m).Nodup) : (mapKeys (mapSet m k v)).Nodup := by
  induction m with
  | nil => simp [mapSet, mapKeys]
  | cons e rest ih =>
    obtain ⟨k', v'⟩ := e
    simp only [mapKeys, List.map_cons, List.nodup_cons] at hnd
    by_cases hk : k' = k
    · subst hk
      simp only [mapSet, if_true, mapKeys, List.map_cons, List.nodup_cons]
      exact hnd
    · simp only [mapSet, hk, if_false, mapKeys, List.map_cons, List.nodup_cons]
      refine ⟨?_, ih hnd.2⟩
      intro hin
      rcases mem_mapKeys_mapSet rest k v k' hin with h1 | h1
      · exact hk h1
      · exact hnd.1 h1

theorem mapGet_mapSet_self {V : Type} (m : List (String × V)) (k : String) (v : V) :
    mapGet (mapSet m k v) k = some v := by
  induction m with
  | nil => simp [mapSet, mapGet]
  | cons e rest ih =>
    obtain ⟨k', v'⟩ := e
    by_cases hk : k' = k
    · simp [mapSet, mapGet, hk]
    · simp [mapSet, mapGet, hk, ih]

theorem mapGet_mapSet_ne {V : Type} (m : List (String × V)) (k k' : String) (v : V)
    (hne : k' ≠ k) : mapGet (mapSet m k v) k' = mapGet m k' := by
  induction m with
  | nil =>
    have h0 : ¬ k = k' := fun e => hne e.symm
    simp [mapSet, mapGet, h0]
  | cons e rest ih =>
    obtain ⟨k0, v0⟩ := e
    by_cases hk : k0 = k
    · subst hk
      have h0 : ¬ k0 = k' := fun e => hne e.symm
      simp [mapSet, mapGet, h0]
    · by_cases hk' : k0 = k'
      · subst hk'
        simp [mapSet, mapGet, hk]
      · simp [mapSet, mapGet, hk, hk', ih]

theorem mapSet_same {V : Type} (m : List (String × V)) (k : String) (v : V)
    (hg : mapGet m k = some v) : mapSet m k v = m := by
  induction m with
  | nil => simp [mapGet] at hg
  | cons e rest ih =>
    obtain ⟨k', v'⟩ := e
    by_cases hk : k' = k
    · simp only [mapGet, hk, if_true, Option.some.injEq] at hg
      simp [mapSet, hk, hg]
    · simp only [mapGet, hk, if_false] at hg
      simp [mapSet, hk, ih hg]

theorem mapSet_ne_nil {V : Type} (m : List (String × V)) (k : String) (v : V) :
    mapSet m k v ≠ [] := by
  cases m with
  | nil => simp [mapSet]
  | cons e rest =>
    obtain ⟨k', v'⟩ := e
    by_cases hk : k' = k
    · simp [mapSet, hk]
    · simp [mapSet, hk]

/-! ## The heap -/

theorem Heap.set_same (h : Heap) (p : Ptr) (c : Client) : (h.set p c) p = c := by
  simp [Heap.set]

theorem Heap.set_other (h : Heap) (p q : Ptr) (c : Client) (hne : q ≠ p) :
    (h.set p c) q = h q := by
  simp [Heap.set, hne]

/-! ## client.go: `SendMessage` -/

/-- C5: on a client whose queue is open, `SendMessage(m)` returns, appends exactly `m` at
the end of the queue, sets `LastEventID()` to the id of `m`, and leaves the uuid and
`Channel()` as they were; on a client as `newClient` makes it, sending a message with id
`"id"` makes `LastEventID()` equal to `"id"`. -/
theorem Client.SendMessage_open (c : Client) (m : Message) (hopen : c.send.closed = false) :
    (∃ c', c.SendMessage m = .ok c' ∧ c'.send.queue = c.send.queue ++ [m] ∧
      c'.send.closed = false ∧ c'.LastEventID = m.id ∧ c'.uuid = c.uuid ∧
      c'.Channel = c.Channel) ∧
    (∀ uuid last channel data event, ∃ c',
      (newClient uuid last channel).SendMessage (NewMessage "id" data event) = .ok c' ∧
      c'.LastEventID = "id") := by
  constructor
  · refine ⟨{ c with lastEventID := m.id, send := { c.send with queue := c.send.queue ++ [m] } },
      ?_, rfl, hopen, rfl, rfl, rfl⟩
    simp [Client.SendMessage, MsgChan.send, hopen]
  · intro uuid last channel data event
    exact ⟨_, rfl, rfl⟩

theorem Client.SendMessage_open_witness :
    (∃ c', (newClient "u" "" "channel").SendMessage (NewMessage "id" "data" "event") = .ok c' ∧
      c'.send.queue = (newClient "u" "" "channel").send.queue ++ [NewMessage "id" "data" "event"] ∧
      c'.send.closed = false ∧ c'.LastEventID = (NewMessage "id" "data" "event").id ∧
      c'.uuid = (newClient "u" "" "channel").uuid ∧
      c'.Channel = (newClient "u" "" "channel").Channel) ∧
    (∀ uuid last channel data event, ∃ c',
      (newClient uuid last channel).SendMessage (NewMessage "id" data event) = .ok c' ∧
      c'.LastEventID = "id") :=
  Client.SendMessage_open (newClient "u" "" "channel") (NewMessage "id" "data" "event") rfl

/-- C9, as the code has it: `SendMessage` has no guard, so on every client whose queue has
been closed it takes the fault branch (the Go panic of a send on a closed channel) and does
not return. -/
theorem Client.SendMessage_closed (c : Client) (m : Message) (hc : c.send.closed = true) :
    c.SendMessage m = .error .sendOnClosedChannel ∧ ∀ c', c.SendMessage m ≠ .ok c' := by
  simp [Client.SendMessage, MsgChan.send, hc]

theorem Client.SendMessage_closed_witness :
    ({ newClient "A" "" "news" with send := ⟨[], true⟩ } : Client).send.closed = true ∧
    ({ newClient "A" "" "news" with send := ⟨[], true⟩ } : Client).SendMessage
        (NewMessage "1" "hello" "") = .error .sendOnClosedChannel :=
  ⟨rfl, (Client.SendMessage_closed { newClient "A" "" "news" with send := ⟨[], true⟩ }
    (NewMessage "1" "hello" "") rfl).1⟩

/-- C9 fails as stated: client `A` is added to a channel and removed again, which closes its
queue; `SendMessage` on it then takes the fault branch. -/
theorem Client.SendMessage_after_removeClient_faults :
    ∃ ch h, ((newChannel "news").addClient 0 demoHeap).removeClient "A" demoHeap = .ok (ch, h) ∧
      (h 0).send.closed = true ∧
      (h 0).SendMessage (NewMessage "1" "hello" "") = .error .sendOnClosedChannel :=
  ⟨_, _, rfl, rfl, rfl⟩

/-! ## sse.go: `Shutdown` twice -/

theorem Server.closeControls_shutdown_closed (s s1 : Server) (hc : s.closeControls = .ok s1) :
    s1.shutdown.closed = true := by
  unfold Server.closeControls at hc
  cases ha : s.addClient.close with
  | error e => simp [ha] at hc
  | ok a =>
    cases hr : s.removeClient.close with
    | error e => simp [ha, hr] at hc
    | ok r =>
      cases hcc : s.closeChannel.close with
      | error e => simp [ha, hr, hcc] at hc
      | ok c =>
        cases hd : s.shutdown.close with
        | error e => simp [ha, hr, hcc, hd] at hc
        | ok d =>
          simp [ha, hr, hcc, hd] at hc
          subst hc
          simp only [CtlChan.close] at hd
          by_cases hcl : s.shutdown.closed = true
          · simp [hcl] at hd
          · simp [hcl] at hd
            subst hd
            rfl

/-- C10, as the code has it: once a `Shutdown` has been processed the dispatcher has closed
the `shutdown` control channel, so a second `Shutdown()` does not wait for a receiver: its
send takes the fault branch (the Go panic of a send on a closed channel). -/
theorem Server.Shutdown_twice (s s1 : Server) (h h1 : Heap)
    (hfirst : s.Shutdown h = .ok (s1, h1)) :
    s1.Shutdown h1 = .error .sendOnClosedChannel := by
  have hcl : s1.shutdown.closed = true := by
    unfold Server.Shutdown at hfirst
    by_cases hs : s.shutdown.closed = true
    · simp [hs] at hfirst
    · simp only [hs] at hfirst
      simp only [Server.dispatch] at hfirst
      cases hc : s.close h with
      | error e => simp [hc] at hfirst
      | ok r =>
        obtain ⟨s2, h2⟩ := r
        cases hcc : s2.closeControls with
        | error e => simp [hc, hcc] at hfirst
        | ok s3 =>
          simp [hc, hcc] at hfirst
          rw [← hfirst.1]
          exact Server.closeControls_shutdown_closed s2 s3 hcc
  simp [Server.Shutdown, hcl]

theorem Server.Shutdown_twice_witness :
    Server.Shutdown
      { channels := [], addClient := ⟨true⟩, removeClient := ⟨true⟩, shutdown := ⟨true⟩,
        closeChannel := ⟨true⟩ } demoHeap = .error .sendOnClosedChannel :=
  Server.Shutdown_twice NewServer _ demoHeap demoHeap rfl

/-- C10 fails as stated: on a new server the first `Shutdown()` is processed, and the second
one takes the fault branch. -/
theorem Server.Shutdown_second_faults :
    ∃ s h, NewServer.Shutdown demoHeap = .ok (s, h) ∧
      s.Shutdown h = .error .sendOnClosedChannel :=
  ⟨_, _, rfl, rfl⟩

/-! ## Delivery loops -/

theorem sendAll_eq_deliver (message : Message) (m : List (String × Ptr)) (h : Heap) :
    sendAll message m h = deliver message (m.map Prod.snd) h := by
  induction m generalizing h with
  | nil => rfl
  | cons e rest ih =>
    obtain ⟨k, p⟩ := e
    simp only [sendAll, List.map_cons, deliver]
    cases (h p).send.send message with
    | error e => rfl
    | ok q => exact ih _

theorem sendSome_eq_deliver (message : Message) (m : List (String × Ptr)) (uuids : List String)
    (h : Heap) : sendSome message m uuids h = deliver message (uuids.filterMap (mapGet m)) h := by
  induction uuids generalizing h with
  | nil => rfl
  | cons u rest ih =>
    cases hg : mapGet m u with
    | none => simp only [sendSome, hg, List.filterMap_cons, ih]
    | some p =>
      simp only [sendSome, hg, List.filterMap_cons, deliver]
      cases (h p).send.send message with
      | error e => rfl
      | ok q => exact ih _

theorem Client.received_zero (c : Client) (message : Message) : c.received message 0 = c := by
  simp [Client.received]

theorem deliver_open (message : Message) (ps : List Ptr) (h : Heap)
    (hopen : ∀ p, p ∈ ps → (h p).send.closed = false) :
    ∃ h', deliver message ps h = .ok h' ∧
      ∀ q, h' q = (h q).received message (ps.count q) := by
  induction ps generalizing h with
  | nil =>
    exact ⟨h, rfl, fun q => by simp [Client.received_zero]⟩
  | cons p rest ih =>
    have hp : (h p).send.closed = false := hopen p (List.mem_cons_self _ _)
    have hrest : ∀ p', p' ∈ rest →
        ((h.set p { h p with send := { queue := (h p).send.queue ++ [message], closed := false } })
          p').send.closed = false := by
      intro p' hp'
      by_cases he : p' = p
      · subst he
        simp [Heap.set, hp]
      · simp [Heap.set, he, hopen p' (List.mem_cons_of_mem _ hp')]
    obtain ⟨h', hd, hq⟩ := ih _ hrest
    refine ⟨h', ?_, ?_⟩
    · simp only [deliver, MsgChan.send, hp, Bool.false_eq_true, if_false]
      exact hd
    · intro q
      rw [hq q]
      by_cases he : q = p
      · subst he
        simp [Heap.set, Client.received, List.count_cons_self, List.replicate_succ, hp]
      · have he' : ¬ p = q := fun e => he e.symm
        simp [Heap.set, he, Client.received, List.count_cons, he']

theorem deliver_lastEventID (message : Message) (ps : List Ptr) (h h' : Heap)
    (hd : deliver message ps h = .ok h') (q : Ptr) : (h' q).lastEventID = (h q).lastEventID := by
  induction ps generalizing h with
  | nil =>
    simp only [deliver, Except.ok.injEq] at hd
    rw [hd]
  | cons p rest ih =>
    simp only [deliver] at hd
    cases hs : (h p).send.send message with
    | error e => simp [hs] at hd
    | ok s =>
      simp only [hs] at hd
      rw [ih _ hd]
      by_cases he : q = p
      · subst he
        simp [Heap.set]
      · simp [Heap.set, he]

/-! ## channel.go: broadcasts -/

theorem Channel.SendBroadcastMessage_open (c : Channel) (msg : Message) (h : Heap)
    (hopen : ∀ p, p ∈ c.clients.map Prod.snd → (h p).send.closed = false) :
    ∃ h', c.SendBroadcastMessage msg h = .ok ({ c with lastEventID := msg.id }, h') ∧
      ∀ q, h' q = (h q).received msg ((c.clients.map Prod.snd).count q) := by
  obtain ⟨h', hd, hq⟩ := deliver_open msg _ h hopen
  refine ⟨h', ?_, hq⟩
  simp only [Channel.SendBroadcastMessage, sendAll_eq_deliver, hd]

theorem foldl_id_getLast (ms : List Message) (hne : ms ≠ []) (d : String) :
    ms.foldl (fun _ m => m.id) d = (ms.getLast hne).id := by
  induction ms generalizing d with
  | nil => exact absurd rfl hne
  | cons m rest ih =>
    cases rest with
    | nil => rfl
    | cons m' rest' =>
      rw [List.foldl_cons, ih (List.cons_ne_nil _ _), List.getLast_cons (List.cons_ne_nil _ _)]

theorem broadcastSeq_single (ms : List Message) (c : Channel) (h : Heap) (k : String) (p : Ptr)
    (hc : c.clients = [(k, p)]) (hp : (h p).send.closed = false) :
    ∃ c' h', broadcastSeq ms c h = .ok (c', h') ∧ c'.clients = [(k, p)] ∧ c'.name = c.name ∧
      c'.lastEventID = ms.foldl (fun _ m => m.id) c.lastEventID ∧
      (h' p).send.queue = (h p).send.queue ++ ms ∧ (h' p).send.closed = false ∧
      (h' p).lastEventID = (h p).lastEventID ∧ (h' p).uuid = (h p).uuid ∧
      (h' p).channel = (h p).channel ∧ ∀ q, q ≠ p → h' q = h q := by
  induction ms generalizing c h with
  | nil => exact ⟨c, h, rfl, hc, rfl, rfl, by simp, hp, rfl, rfl, rfl, fun _ _ => rfl⟩
  | cons m rest ih =>
    have hopen : ∀ q, q ∈ c.clients.map Prod.snd → (h q).send.closed = false := by
      intro q hq
      rw [hc] at hq
      simp only [List.map_cons, List.map_nil, List.mem_singleton] at hq
      rw [hq]
      exact hp
    obtain ⟨h1, hb, hq1⟩ := Channel.SendBroadcastMessage_open c m h hopen
    have h1p : h1 p = (h p).received m 1 := by
      rw [hq1 p, hc]
      simp
    have h1q : ∀ q, q ≠ p → h1 q = h q := by
      intro q hne
      rw [hq1 q, hc]
      have hne' : ¬ p = q := fun e => hne e.symm
      simp [List.count_cons, hne', Client.received_zero]
    have hp1 : (h1 p).send.closed = false := by
      rw [h1p]
      exact hp
    obtain ⟨c', h', hr, hcl, hnm, hid, hqu, hclo, hlast, hu, hch, hoth⟩ :=
      ih { c with lastEventID := m.id } h1 hc hp1
    refine ⟨c', h', ?_, hcl, hnm, hid, ?_, hclo, ?_, ?_, ?_, ?_⟩
    · simp only [broadcastSeq, hb]
      exact hr
    · rw [hqu, h1p]
      simp [Client.received]
    · rw [hlast, h1p]
      rfl
    · rw [hu, h1p]
      rfl
    · rw [hch, h1p]
      rfl
    · intro q hne
      rw [hoth q hne, h1q q hne]

/-- C3: on a channel whose only member is client `c` (at address `p`, queue open), the calls
`SendBroadcastMessage(m1)`, ..., `SendBroadcastMessage(mN)` with `N ≥ 1` all return, the
queue of `c` afterwards is its old content followed by exactly `m1..mN` in that order, and
`Channel.LastEventID()` is the id of `mN`. -/
theorem Channel.broadcast_single_member (ms : List Message) (hne : ms ≠ []) (c : Channel)
    (h : Heap) (k : String) (p : Ptr) (hc : c.clients = [(k, p)])
    (hp : (h p).send.closed = false) :
    ∃ c' h', broadcastSeq ms c h = .ok (c', h') ∧
      (h' p).send.queue = (h p).send.queue ++ ms ∧
      c'.LastEventID = (ms.getLast hne).id ∧
      c'.clients = c.clients ∧ (h' p).send.closed = false := by
  obtain ⟨c', h', hr, hcl, _, hid, hqu, hclo, _⟩ := broadcastSeq_single ms c h k p hc hp
  refine ⟨c', h', hr, hqu, ?_, ?_, hclo⟩
  · rw [Channel.LastEventID, hid]
    exact foldl_id_getLast ms hne _
  · rw [hcl, hc]

theorem Channel.broadcast_single_member_witness :
    ∃ c' h', broadcastSeq [NewMessage "id_1" "msg" "channel", NewMessage "id_2" "msg" "channel"]
        ((newChannel "channel").addClient 0 demoHeap) demoHeap = .ok (c', h') ∧
      (h' 0).send.queue = (demoHeap 0).send.queue ++
        [NewMessage "id_1" "msg" "channel", NewMessage "id_2" "msg" "channel"] ∧
      c'.LastEventID = "id_2" ∧
      c'.clients = ((newChannel "channel").addClient 0 demoHeap).clients ∧
      (h' 0).send.closed = false :=
  Channel.broadcast_single_member
    [NewMessage "id_1" "msg" "channel", NewMessage "id_2" "msg" "channel"] (by decide)
    ((newChannel "channel").addClient 0 demoHeap) demoHeap "A" 0 rfl rfl

theorem Channel.SendBroadcastMessage_keeps_lastEventID (c c1 : Channel) (msg : Message)
    (h h1 : Heap) (hr : c.SendBroadcastMessage msg h = .ok (c1, h1)) (q : Ptr) :
    (h1 q).LastEventID = (h q).LastEventID ∧ c1.LastEventID = msg.id := by
  simp only [Channel.SendBroadcastMessage, sendAll_eq_deliver] at hr
  cases hd : deliver msg (c.clients.map Prod.snd) h with
  | error e => simp [hd] at hr
  | ok h2 =>
    simp only [hd, Except.ok.injEq, Prod.mk.injEq] at hr
    rw [← hr.1, ← hr.2]
    exact ⟨deliver_lastEventID msg _ h h2 hd q, rfl⟩

/-- C4 fails on the code: client `A`, created with last-event-id `""`, is attached to topic
`news`; the broadcast of the message with id `"1"` returns nil and hands the message to `A`,
the channel's last-event-id becomes `"1"`, but `A.LastEventID()` is still `""`, because the
broadcast loop sends on the queue directly and not through `Client.SendMessage`. -/
theorem Client.LastEventID_after_broadcast :
    ∃ s h, run [.Attach 0] NewServer demoHeap = .ok (s, h) ∧
      ∃ s' h', s.SendBroadcastMessage "news" (NewMessage "1" "hello" "") h = .ok (none, s', h') ∧
        (h' 0).send.queue = [NewMessage "1" "hello" ""] ∧
        (s'.getChannel "news").map Channel.LastEventID = some "1" ∧
        (h' 0).LastEventID = "" :=
  ⟨_, _, rfl, _, _, rfl, rfl, rfl, rfl⟩

theorem count_targets_member (h : Heap) (m : List (String × Ptr)) (hok : MembersOK h m)
    (ids : List String) (k : String) (p : Ptr) (hm : (k, p) ∈ m) :
    (ids.filterMap (mapGet m)).count p = ids.count k := by
  have hgk : mapGet m k = some p := mapGet_of_mem m k p hok.1 hm
  induction ids with
  | nil => rfl
  | cons u rest ih =>
    by_cases hu : u = k
    · subst hu
      simp [List.filterMap_cons, hgk, ih]
    · have hu' : ¬ k = u := fun e => hu e.symm
      cases hg : mapGet m u with
      | none => simp [List.filterMap_cons, hg, ih, List.count_cons, hu]
      | some q =>
        have hq : ¬ q = p := by
          intro e
          subst e
          have h1 := (hok.2 u q (mapGet_some_mem m u q hg)).1
          have h2 := (hok.2 k q hm).1
          exact hu (h1.symm.trans h2)
        simp [List.filterMap_cons, hg, ih, List.count_cons, hu, hq]

theorem count_targets_nonmember (m : List (String × Ptr)) (ids : List String) (q : Ptr)
    (hq : q ∉ m.map Prod.snd) : (ids.filterMap (mapGet m)).count q = 0 := by
  apply List.count_eq_zero_of_not_mem
  intro hin
  obtain ⟨u, _, hg⟩ := List.mem_filterMap.1 hin
  exact hq (List.mem_map.2 ⟨(u, q), mapGet_some_mem m u q hg, rfl⟩)

/-- C7: on a channel whose membership map is well formed (entries filed under the uuid of
their client, queues open), `SendMessageToClients(m, ids)` returns, leaves the membership
unchanged, hands `m` to each member whose uuid is in `ids` (once per occurrence of the uuid
in `ids`, so exactly once when `ids` has no repetition), leaves the client object of every
member whose uuid is not in `ids` untouched, and skips uuids that are not members: no other
client object changes. -/
theorem Channel.SendMessageToClients_subset (c : Channel) (m : Message) (ids : List String)
    (h : Heap) (hok : MembersOK h c.clients) :
    ∃ c' h', c.SendMessageToClients m ids h = .ok (c', h') ∧
      c'.clients = c.clients ∧ c'.name = c.name ∧
      (∀ k p, (k, p) ∈ c.clients → k ∈ ids →
        (h' p).send.queue = (h p).send.queue ++ List.replicate (ids.count k) m ∧
        0 < ids.count k ∧ (h' p).send.closed = false) ∧
      (∀ k p, (k, p) ∈ c.clients → k ∈ ids → ids.Nodup →
        (h' p).send.queue = (h p).send.queue ++ [m]) ∧
      (∀ k p, (k, p) ∈ c.clients → k ∉ ids → h' p = h p) ∧
      (∀ q, q ∉ c.clients.map Prod.snd → h' q = h q) := by
  have hopen : ∀ p, p ∈ ids.filterMap (mapGet c.clients) → (h p).send.closed = false := by
    intro p hp
    obtain ⟨u, _, hg⟩ := List.mem_filterMap.1 hp
    exact (hok.2 u p (mapGet_some_mem _ u p hg)).2
  obtain ⟨h', hd, hq⟩ := deliver_open m _ h hopen
  refine ⟨{ c with lastEventID := m.id }, h', ?_, rfl, rfl, ?_, ?_, ?_, ?_⟩
  · simp only [Channel.SendMessageToClients, sendSome_eq_deliver, hd]
  · intro k p hm hk
    rw [hq p, count_targets_member h c.clients hok ids k p hm]
    exact ⟨rfl, List.count_pos_iff.2 hk, (hok.2 k p hm).2⟩
  · intro k p hm hk hnd
    rw [hq p, count_targets_member h c.clients hok ids k p hm,
      List.count_eq_one_of_mem hnd hk]
    rfl
  · intro k p hm hk
    rw [hq p, count_targets_member h c.clients hok ids k p hm,
      List.count_eq_zero_of_not_mem hk, Client.received_zero]
  · intro q hqn
    rw [hq q, count_targets_nonmember c.clients ids q hqn, Client.received_zero]

theorem demo_members_ok : MembersOK demoHeap [("A", 0), ("B", 1)] := by
  refine ⟨by decide, ?_⟩
  intro k p hm
  simp only [List.mem_cons, Prod.mk.injEq, List.mem_singleton, List.not_mem_nil, or_false] at hm
  rcases hm with ⟨rfl, rfl⟩ | ⟨rfl, rfl⟩
  · exact ⟨rfl, rfl⟩
  · exact ⟨rfl, rfl⟩

theorem Channel.SendMessageToClients_subset_witness :
    ∃ c' h', (((newChannel "t").addClient 0 demoHeap).addClient 1 demoHeap).SendMessageToClients
        (NewMessage "1" "hello" "") ["A", "nobody"] demoHeap = .ok (c', h') ∧
      c'.clients = [("A", 0), ("B", 1)] ∧
      (h' 0).send.queue = [NewMessage "1" "hello" ""] ∧ (h' 1).send.queue = [] := by
  obtain ⟨c', h', hr, hcl, _, _, hone, hnot, _⟩ :=
    Channel.SendMessageToClients_subset (((newChannel "t").addClient 0 demoHeap).addClient 1 demoHeap)
      (NewMessage "1" "hello" "") ["A", "nobody"] demoHeap demo_members_ok
  refine ⟨c', h', hr, hcl, ?_, ?_⟩
  · exact hone "A" 0 (by decide) (by decide) (by decide)
  · rw [hnot "B" 1 (by decide) (by decide)]
    rfl

/-! ## channel.go: `removeClient` and `Close` -/

theorem Channel.removeClient_absent (c : Channel) (uuid : String) (h : Heap)
    (ha : uuid ∉ mapKeys c.clients) : c.removeClient uuid h = .ok (c, h) := by
  simp [Channel.removeClient, (mapGet_eq_none_iff _ _).2 ha]

theorem Channel.removeClient_present (c : Channel) (uuid : String) (h : Heap) (p : Ptr)
    (hg : mapGet c.clients uuid = some p) (hopen : (h p).send.closed = false) :
    c.removeClient uuid h = .ok ({ c with clients := mapDelete c.clients uuid },
      h.set p { h p with send := { (h p).send with closed := true } }) := by
  simp [Channel.removeClient, hg, MsgChan.close, hopen]

theorem Channel.removeClient_clients (c c1 : Channel) (uuid : String) (h h1 : Heap)
    (hr : c.removeClient uuid h = .ok (c1, h1)) :
    c1.clients = mapDelete c.clients uuid ∧ c1.name = c.name ∧
      c1.lastEventID = c.lastEventID := by
  unfold Channel.removeClient at hr
  cases hg : mapGet c.clients uuid with
  | none =>
    simp only [hg, Except.ok.injEq, Prod.mk.injEq] at hr
    rw [← hr.1, mapDelete_absent _ _ hg]
    exact ⟨rfl, rfl, rfl⟩
  | some p =>
    simp only [hg] at hr
    cases hc : (h p).send.close with
    | error e => simp [hc] at hr
    | ok q =>
      simp only [hc, Except.ok.injEq, Prod.mk.injEq] at hr
      rw [← hr.1]
      exact ⟨rfl, rfl, rfl⟩

theorem Channel.removeClient_twice (c c1 : Channel) (uuid : String) (h h1 : Heap)
    (hr : c.removeClient uuid h = .ok (c1, h1)) : c1.removeClient uuid h1 = .ok (c1, h1) := by
  apply Channel.removeClient_absent
  rw [(Channel.removeClient_clients c c1 uuid h h1 hr).1]
  exact not_mem_mapKeys_mapDelete _ _

theorem sameIds_refl (h : Heap) : SameIds h h :=
  fun _ => ⟨rfl, rfl⟩

theorem sameIds_trans (h1 h2 h3 : Heap) (a : SameIds h1 h2) (b : SameIds h2 h3) :
    SameIds h1 h3 :=
  fun q => ⟨(b q).1.trans (a q).1, (b q).2.trans (a q).2⟩

theorem Channel.removeClient_sameIds (c c1 : Channel) (uuid : String) (h h1 : Heap)
    (hr : c.removeClient uuid h = .ok (c1, h1)) : SameIds h h1 := by
  unfold Channel.removeClient at hr
  cases hg : mapGet c.clients uuid with
  | none =>
    simp only [hg, Except.ok.injEq, Prod.mk.injEq] at hr
    rw [← hr.2]
    exact sameIds_refl h
  | some p =>
    simp only [hg] at hr
    cases hc : (h p).send.close with
    | error e => simp [hc] at hr
    | ok q =>
      simp only [hc, Except.ok.injEq, Prod.mk.injEq] at hr
      rw [← hr.2]
      intro q'
      by_cases he : q' = p
      · subst he
        simp [Heap.set]
      · simp [Heap.set, he]

theorem closeLoop_sameIds (ks : List String) (c c1 : Channel) (h h1 : Heap)
    (hr : closeLoop ks c h = .ok (c1, h1)) : SameIds h h1 := by
  induction ks generalizing c h with
  | nil =>
    simp only [closeLoop, Except.ok.injEq, Prod.mk.injEq] at hr
    rw [← hr.2]
    exact sameIds_refl h
  | cons k rest ih =>
    simp only [closeLoop] at hr
    cases hrc : c.removeClient k h with
    | error e => simp [hrc] at hr
    | ok r =>
      obtain ⟨c2, h2⟩ := r
      simp only [hrc] at hr
      exact sameIds_trans _ _ _ (Channel.removeClient_sameIds c c2 k h h2 hrc) (ih c2 h2 hr)

theorem Server.removeChannel_ok (s s1 : Server) (ch : Channel) (h h1 : Heap)
    (hr : s.removeChannel ch h = .ok (s1, h1)) :
    s1 = { s with channels := mapDelete s.channels ch.name } ∧ SameIds h h1 := by
  unfold Server.removeChannel at hr
  cases hc : ch.Close h with
  | error e => simp [hc] at hr
  | ok r =>
    obtain ⟨c2, h2⟩ := r
    simp only [hc, Except.ok.injEq, Prod.mk.injEq] at hr
    refine ⟨hr.1.symm, ?_⟩
    rw [← hr.2]
    exact closeLoop_sameIds _ _ _ _ _ hc

theorem mapDelete_sublist {V : Type} (m : List (String × V)) (k : String) :
    (mapDelete m k).Sublist m := by
  induction m with
  | nil => simp [mapDelete]
  | cons e rest ih =>
    obtain ⟨k', v⟩ := e
    by_cases hk : k' = k
    · simp only [mapDelete, hk, if_true]
      exact List.Sublist.cons _ ih
    · simp only [mapDelete, hk, if_false]
      exact List.Sublist.cons₂ _ ih

theorem closeAll_ok (ks : List String) (s s1 : Server) (h h1 : Heap)
    (hr : closeAll ks s h = .ok (s1, h1)) :
    s1.channels.Sublist s.channels ∧ SameControls s s1 ∧ SameIds h h1 := by
  induction ks generalizing s h with
  | nil =>
    simp only [closeAll, Except.ok.injEq, Prod.mk.injEq] at hr
    rw [← hr.1, ← hr.2]
    exact ⟨List.Sublist.refl _, ⟨rfl, rfl, rfl, rfl⟩, sameIds_refl h⟩
  | cons k rest ih =>
    simp only [closeAll] at hr
    cases hg : mapGet s.channels k with
    | none =>
      simp only [hg] at hr
      exact ih s h hr
    | some ch =>
      simp only [hg] at hr
      cases hrc : s.removeChannel ch h with
      | error e => simp [hrc] at hr
      | ok r =>
        obtain ⟨s2, h2⟩ := r
        simp only [hrc] at hr
        obtain ⟨hs2, hid2⟩ := Server.removeChannel_ok s s2 ch h h2 hrc
        obtain ⟨hsub, hctl, hid⟩ := ih s2 h2 hr
        refine ⟨?_, ?_, sameIds_trans _ _ _ hid2 hid⟩
        · refine List.Sublist.trans hsub ?_
          rw [hs2]
          exact mapDelete_sublist _ _
        · rw [hs2] at hctl
          exact hctl

theorem channelOK_sameIds (h h' : Heap) (n : String) (ch : Channel) (hs : SameIds h h')
    (ok : ChannelOK h n ch) : ChannelOK h' n ch := by
  refine ⟨ok.1, ok.2.1, ok.2.2.1, ?_⟩
  intro k p hm
  rw [(hs p).1, (hs p).2]
  exact ok.2.2.2 k p hm

theorem tableOK_sameIds (h h' : Heap) (t : List (String × Channel)) (hs : SameIds h h')
    (ok : TableOK h t) : TableOK h' t :=
  ⟨ok.1, fun n ch hm => channelOK_sameIds h h' n ch hs (ok.2 n ch hm)⟩

theorem tableOK_sublist (h : Heap) (t t' : List (String × Channel)) (hsub : t'.Sublist t)
    (ok : TableOK h t) : TableOK h t' :=
  ⟨List.Nodup.sublist (List.Sublist.map Prod.fst hsub) ok.1,
    fun n ch hm => ok.2 n ch (hsub.subset hm)⟩

theorem mapSet_mapSet {V : Type} (m : List (String × V)) (k : String) (v v' : V) :
    mapSet (mapSet m k v) k v' = mapSet m k v' := by
  induction m with
  | nil => simp [mapSet]
  | cons e rest ih =>
    obtain ⟨k', v0⟩ := e
    by_cases hk : k' = k
    · simp [mapSet, hk]
    · simp [mapSet, hk, ih]

theorem tableOK_set (h : Heap) (t : List (String × Channel)) (n : String) (ch : Channel)
    (ok : TableOK h t) (hch : ChannelOK h n ch) : TableOK h (mapSet t n ch) := by
  refine ⟨mapKeys_mapSet_nodup t n ch ok.1, ?_⟩
  intro n' ch' hm
  rcases mem_mapSet t n ch (n', ch') hm with h1 | h1
  · cases h1
    exact hch
  · exact ok.2 n' ch' h1

theorem Channel.addClient_ok (h : Heap) (n : String) (ch : Channel) (p : Ptr)
    (hname : ch.name = n) (hnd : (mapKeys ch.clients).Nodup)
    (hent : ∀ k q, (k, q) ∈ ch.clients → (h q).uuid = k ∧ (h q).channel = n)
    (hp : (h p).channel = n) : ChannelOK h n (ch.addClient p h) := by
  refine ⟨hname, mapSet_ne_nil _ _ _, mapKeys_mapSet_nodup _ _ _ hnd, ?_⟩
  intro k q hm
  rcases mem_mapSet ch.clients (h p).uuid p (k, q) hm with h1 | h1
  · cases h1
    exact ⟨rfl, hp⟩
  · exact hent k q h1

theorem Server.closeControls_channels (s s1 : Server) (hc : s.closeControls = .ok s1) :
    s1.channels = s.channels := by
  unfold Server.closeControls at hc
  cases ha : s.addClient.close with
  | error e => simp [ha] at hc
  | ok a =>
    cases hr : s.removeClient.close with
    | error e => simp [ha, hr] at hc
    | ok r =>
      cases hcc : s.closeChannel.close with
      | error e => simp [ha, hr, hcc] at hc
      | ok c =>
        cases hd : s.shutdown.close with
        | error e => simp [ha, hr, hcc, hd] at hc
        | ok d =>
          simp [ha, hr, hcc, hd] at hc
          subst hc
          rfl

theorem Server.dispatch_tableOK (s s1 : Server) (h h1 : Heap) (ev : Event)
    (ok : TableOK h s.channels) (hr : s.dispatch h ev = .ok (s1, h1)) :
    TableOK h1 s1.channels ∧ SameIds h h1 := by
  cases ev with
  | addClient p =>
    simp only [Server.dispatch] at hr
    cases hg : s.getChannel (h p).channel with
    | some ch =>
      simp only [hg, Except.ok.injEq, Prod.mk.injEq] at hr
      rw [← hr.1, ← hr.2]
      have hch := ok.2 _ ch (mapGet_some_mem _ _ _ hg)
      refine ⟨tableOK_set h _ _ _ ok ?_, sameIds_refl h⟩
      exact Channel.addClient_ok h _ ch p hch.1 hch.2.2.1 hch.2.2.2 rfl
    | none =>
      simp only [hg, Server.addChannel, Except.ok.injEq, Prod.mk.injEq] at hr
      rw [← hr.1, ← hr.2]
      refine ⟨?_, sameIds_refl h⟩
      simp only [newChannel, mapSet_mapSet]
      refine tableOK_set h _ _ _ ok ?_
      refine Channel.addClient_ok h _ _ p rfl ?_ ?_ rfl
      · simp [mapKeys]
      · intro k q hm
        simp at hm
  | removeClient p =>
    simp only [Server.dispatch] at hr
    cases hg : s.getChannel (h p).channel with
    | none =>
      simp only [hg, Except.ok.injEq, Prod.mk.injEq] at hr
      rw [← hr.1, ← hr.2]
      exact ⟨ok, sameIds_refl h⟩
    | some ch =>
      simp only [hg] at hr
      have hch := ok.2 _ ch (mapGet_some_mem _ _ _ hg)
      cases hrc : ch.removeClient (h p).uuid h with
      | error e => simp [hrc] at hr
      | ok r =>
        obtain ⟨ch1, h2⟩ := r
        simp only [hrc] at hr
        obtain ⟨hcl, hnm, _⟩ := Channel.removeClient_clients ch ch1 _ h h2 hrc
        have hid := Channel.removeClient_sameIds ch ch1 _ h h2 hrc
        have ok2 : TableOK h2 s.channels := tableOK_sameIds h h2 _ hid ok
        by_cases hz : ch1.ClientCount = 0
        · simp only [hz, if_true] at hr
          obtain ⟨hs1, hid1⟩ := Server.removeChannel_ok _ s1 ch1 h2 h1 hr
          refine ⟨?_, sameIds_trans _ _ _ hid hid1⟩
          rw [hs1]
          simp only
          refine tableOK_sameIds h2 h1 _ hid1 ⟨?_, ?_⟩
          · exact mapKeys_mapDelete_nodup _ _ (mapKeys_mapSet_nodup _ _ _ ok.1)
          · intro n c hm
            obtain ⟨hm1, hne⟩ := (mem_mapDelete _ _ _).1 hm
            rcases mem_mapSet _ _ _ _ hm1 with h3 | h3
            · cases h3
              exact absurd (hnm.trans hch.1).symm hne
            · exact ok2.2 n c h3
        · simp only [hz, if_false, Except.ok.injEq, Prod.mk.injEq] at hr
          rw [← hr.1, ← hr.2]
          refine ⟨tableOK_set h2 _ _ _ ok2 ?_, hid⟩
          refine ⟨hnm.trans hch.1, ?_, ?_, ?_⟩
          · intro he
            apply hz
            simp [Channel.ClientCount, he]
          · rw [hcl]
            exact mapKeys_mapDelete_nodup _ _ hch.2.2.1
          · intro k q hm
            rw [hcl] at hm
            rw [(hid q).1, (hid q).2]
            exact hch.2.2.2 k q ((mem_mapDelete _ _ _).1 hm).1
  | closeChannel name =>
    simp only [Server.dispatch] at hr
    cases hg : s.getChannel name with
    | none =>
      simp only [hg, Except.ok.injEq, Prod.mk.injEq] at hr
      rw [← hr.1, ← hr.2]
      exact ⟨ok, sameIds_refl h⟩
    | some ch =>
      simp only [hg] at hr
      obtain ⟨hs1, hid1⟩ := Server.removeChannel_ok _ s1 ch h h1 hr
      refine ⟨?_, hid1⟩
      rw [hs1]
      exact tableOK_sameIds h h1 _ hid1 (tableOK_sublist h _ _ (mapDelete_sublist _ _) ok)
  | shutdown =>
    simp only [Server.dispatch, Server.close] at hr
    cases hc : closeAll (mapKeys s.channels) s h with
    | error e => simp [hc] at hr
    | ok r =>
      obtain ⟨s2, h2⟩ := r
      simp only [hc] at hr
      cases hcc : s2.closeControls with
      | error e => simp [hcc] at hr
      | ok s3 =>
        simp only [hcc, Except.ok.injEq, Prod.mk.injEq] at hr
        obtain ⟨hsub, _, hid⟩ := closeAll_ok _ s s2 h h2 hc
        rw [← hr.1, ← hr.2, Server.closeControls_channels s2 s3 hcc]
        exact ⟨tableOK_sameIds h h2 _ hid (tableOK_sublist h _ _ hsub ok), hid⟩

theorem Server.call_tableOK (s s1 : Server) (h h1 : Heap) (c : Call)
    (ok : TableOK h s.channels) (hr : s.call h c = .ok (s1, h1)) :
    TableOK h1 s1.channels ∧ SameIds h h1 := by
  cases c with
  | Attach p =>
    simp only [Server.call, Server.attach] at hr
    by_cases hcl : s.addClient.closed = true
    · simp [hcl] at hr
    · simp only [hcl, Bool.false_eq_true, if_false] at hr
      exact Server.dispatch_tableOK s s1 h h1 _ ok hr
  | Detach p =>
    simp only [Server.call, Server.detach] at hr
    by_cases hcl : s.removeClient.closed = true
    · simp [hcl] at hr
    · simp only [hcl, Bool.false_eq_true, if_false] at hr
      exact Server.dispatch_tableOK s s1 h h1 _ ok hr
  | CloseChannel name =>
    simp only [Server.call, Server.CloseChannel] at hr
    by_cases hcl : s.closeChannel.closed = true
    · simp [hcl] at hr
    · simp only [hcl, Bool.false_eq_true, if_false] at hr
      exact Server.dispatch_tableOK s s1 h h1 _ ok hr
  | Restart =>
    simp only [Server.call, Server.Restart, Server.close] at hr
    obtain ⟨hsub, _, hid⟩ := closeAll_ok _ s s1 h h1 hr
    exact ⟨tableOK_sameIds h h1 _ hid (tableOK_sublist h _ _ hsub ok), hid⟩
  | Shutdown =>
    simp only [Server.call, Server.Shutdown] at hr
    by_cases hcl : s.shutdown.closed = true
    · simp [hcl] at hr
    · simp only [hcl, Bool.false_eq_true, if_false] at hr
      exact Server.dispatch_tableOK s s1 h h1 _ ok hr

theorem run_tableOK (calls : List Call) (s s1 : Server) (h h1 : Heap)
    (ok : TableOK h s.channels) (hr : run calls s h = .ok (s1, h1)) :
    TableOK h1 s1.channels ∧ SameIds h h1 := by
  induction calls generalizing s h with
  | nil =>
    simp only [run, Except.ok.injEq, Prod.mk.injEq] at hr
    rw [← hr.1, ← hr.2]
    exact ⟨ok, sameIds_refl h⟩
  | cons c rest ih =>
    simp only [run] at hr
    cases hc : s.call h c with
    | error e => simp [hc] at hr
    | ok r =>
      obtain ⟨s2, h2⟩ := r
      simp only [hc] at hr
      obtain ⟨ok2, hid2⟩ := Server.call_tableOK s s2 h h2 c ok hc
      obtain ⟨ok1, hid1⟩ := ih s2 h2 ok2 hr
      exact ⟨ok1, sameIds_trans _ _ _ hid2 hid1⟩

theorem tableOK_empty (h : Heap) : TableOK h NewServer.channels :=
  ⟨by simp [NewServer, mapKeys], fun n ch hm => by simp [NewServer] at hm⟩

/-! ## sse.go: the topic table and the memberships -/

theorem mem_membersOf (t : List (String × Channel)) (n : String) (ch : Channel) (k : String)
    (p : Ptr) (hch : (n, ch) ∈ t) (hp : (k, p) ∈ ch.clients) : p ∈ membersOf t := by
  induction t with
  | nil => simp at hch
  | cons e rest ih =>
    obtain ⟨n', ch'⟩ := e
    simp only [membersOf, List.mem_append]
    rcases List.mem_cons.1 hch with heq | hin
    · cases heq
      exact Or.inl (List.mem_map.2 ⟨(k, p), hp, rfl⟩)
    · exact Or.inr (ih hin)

theorem Server.detach_last (s : Server) (h : Heap) (name : String) (ch : Channel) (k : String)
    (p : Ptr) (ok : TableOK h s.channels) (hg : s.getChannel name = some ch)
    (hc : ch.clients = [(k, p)]) :
    (∀ s' h', s.detach p h = .ok (s', h') → s'.HasChannel name = false) ∧
    (s.removeClient.closed = false → (h p).send.closed = false →
      ∃ s' h', s.detach p h = .ok (s', h') ∧ s'.HasChannel name = false) := by
  have hch := ok.2 name ch (mapGet_some_mem _ _ _ hg)
  have hkp := hch.2.2.2 k p (by rw [hc]; exact List.mem_singleton.2 rfl)
  have hg' : s.getChannel (h p).channel = some ch := by rw [hkp.2]; exact hg
  have hfirst : ∀ s' h', s.detach p h = .ok (s', h') → s'.HasChannel name = false := by
    intro s' h' hr
    unfold Server.detach at hr
    by_cases hcl : s.removeClient.closed = true
    · simp [hcl] at hr
    · simp only [hcl, Bool.false_eq_true, if_false, Server.dispatch, hg'] at hr
      cases hrc : ch.removeClient (h p).uuid h with
      | error e => simp [hrc] at hr
      | ok r =>
        obtain ⟨ch1, h2⟩ := r
        simp only [hrc] at hr
        obtain ⟨hcl1, hnm, _⟩ := Channel.removeClient_clients ch ch1 _ h h2 hrc
        have hempty : ch1.clients = [] := by
          rw [hcl1, hc, hkp.1]
          simp [mapDelete]
        have hz : ch1.ClientCount = 0 := by simp [Channel.ClientCount, hempty]
        simp only [hz, if_true] at hr
        obtain ⟨hs1, _⟩ := Server.removeChannel_ok _ s' ch1 h2 h' hr
        rw [hs1, hnm, hch.1]
        simp [Server.HasChannel, Server.getChannel, mapGet_mapDelete_self]
  refine ⟨hfirst, ?_⟩
  intro hctl hopen
  have hgk : mapGet ch.clients (h p).uuid = some p := by
    rw [hc, hkp.1]
    simp [mapGet]
  have hrc := Channel.removeClient_present ch (h p).uuid h p hgk hopen
  have hd : mapDelete ch.clients (h p).uuid = [] := by
    rw [hc, hkp.1]
    simp [mapDelete]
  have hex : ∃ s' h', s.detach p h = .ok (s', h') := by
    simp only [Server.detach, hctl, Bool.false_eq_true, if_false, Server.dispatch, hg', hrc,
      Channel.ClientCount, hd, List.length_nil, if_true, Server.removeChannel, Channel.Close,
      mapKeys, List.map_nil, closeLoop]
    exact ⟨_, _, rfl⟩
  obtain ⟨s', h', hr⟩ := hex
  exact ⟨s', h', hr, hfirst s' h' hr⟩

theorem foldl_mapDelete_all {V : Type} (ks : List String) (m : List (String × V))
    (hk : ∀ e, e ∈ m → e.1 ∈ ks) : ks.foldl mapDelete m = [] := by
  induction ks generalizing m with
  | nil =>
    cases m with
    | nil => rfl
    | cons e rest => exact absurd (hk e (List.mem_cons_self _ _)) (List.not_mem_nil _)
  | cons k rest ih =>
    rw [List.foldl_cons]
    apply ih
    intro e he
    obtain ⟨h1, h2⟩ := (mem_mapDelete m k e).1 he
    rcases List.mem_cons.1 (hk e h1) with h3 | h3
    · exact absurd h3 h2
    · exact h3

theorem closeLoop_clients (ks : List String) (c c1 : Channel) (h h1 : Heap)
    (hr : closeLoop ks c h = .ok (c1, h1)) : c1.clients = ks.foldl mapDelete c.clients := by
  induction ks generalizing c h with
  | nil =>
    simp only [closeLoop, Except.ok.injEq, Prod.mk.injEq] at hr
    rw [← hr.1]
    rfl
  | cons k rest ih =>
    simp only [closeLoop] at hr
    cases hrc : c.removeClient k h with
    | error e => simp [hrc] at hr
    | ok r =>
      obtain ⟨c2, h2⟩ := r
      simp only [hrc] at hr
      rw [ih c2 h2 hr, (Channel.removeClient_clients c c2 k h h2 hrc).1, List.foldl_cons]

theorem Channel.Close_empty (c c1 : Channel) (h h1 : Heap) (hr : c.Close h = .ok (c1, h1)) :
    c1.ClientCount = 0 := by
  have hcl := closeLoop_clients _ c c1 h h1 hr
  rw [foldl_mapDelete_all (mapKeys c.clients) c.clients
    (fun e he => List.mem_map_of_mem Prod.fst he)] at hcl
  simp [Channel.ClientCount, hcl]

/-- C1: after every sequence of `Attach`, `Detach`, `CloseChannel`, `Restart` and `Shutdown`
operations processed from the empty table of `NewServer`, a topic name is in the table
exactly when its channel has at least one member (a channel object that `removeChannel` has
taken out of the table is left without members by `Close`); and when `Detach` is processed
for the only member of a topic, `HasChannel` of that topic is false afterwards (the `Detach`
is processed whenever the dispatcher is running and that member's queue is open). -/
theorem Server.channels_iff_members (calls : List Call) (h0 : Heap) (s : Server) (h : Heap)
    (hrun : run calls NewServer h0 = .ok (s, h)) :
    (∀ name, s.HasChannel name = true ↔
      ∃ ch, s.getChannel name = some ch ∧ 1 ≤ ch.ClientCount) ∧
    (∀ (ch ch1 : Channel) (hh h1 : Heap), ch.Close hh = .ok (ch1, h1) → ch1.ClientCount = 0) ∧
    (∀ name ch k p, s.getChannel name = some ch → ch.clients = [(k, p)] →
      (∀ s' h', s.detach p h = .ok (s', h') → s'.HasChannel name = false) ∧
      (s.removeClient.closed = false → (h p).send.closed = false →
        ∃ s' h', s.detach p h = .ok (s', h') ∧ s'.HasChannel name = false)) := by
  have ok := (run_tableOK calls NewServer s h0 h (tableOK_empty h0) hrun).1
  refine ⟨?_, ?_, ?_⟩
  · intro name
    constructor
    · intro hhas
      cases hg : s.getChannel name with
      | none => simp [Server.HasChannel, hg] at hhas
      | some ch =>
        refine ⟨ch, rfl, ?_⟩
        have hne := (ok.2 name ch (mapGet_some_mem _ _ _ hg)).2.1
        cases hcl : ch.clients with
        | nil => exact absurd hcl hne
        | cons e rest => simp [Channel.ClientCount, hcl]
    · rintro ⟨ch, hg, _⟩
      simp [Server.HasChannel, hg]
  · intro ch ch1 hh h1 hr
    exact Channel.Close_empty ch ch1 hh h1 hr
  · intro name ch k p hg hc
    exact Server.detach_last s h name ch k p ok hg hc

theorem Server.channels_iff_members_witness :
    ∃ s h, run [.Attach 0, .Attach 1, .Detach 0] NewServer demoHeap = .ok (s, h) ∧
      (s.HasChannel "news" = true ↔
        ∃ ch, s.getChannel "news" = some ch ∧ 1 ≤ ch.ClientCount) ∧
      ∃ s' h', s.detach 1 h = .ok (s', h') ∧ s'.HasChannel "news" = false :=
  ⟨_, _, rfl,
    (Server.channels_iff_members [.Attach 0, .Attach 1, .Detach 0] demoHeap _ _ rfl).1 "news",
    ((Server.channels_iff_members [.Attach 0, .Attach 1, .Detach 0] demoHeap _ _ rfl).2.2
      "news" _ "B" 1 rfl rfl).2 rfl rfl⟩

/-- C8: in every state reached from `NewServer`, processing `Detach` for a client that is
not a member of any channel (no member carries its uuid) leaves the server (topic table,
memberships) and the heap of clients (queues open or closed) exactly as they were and raises
no fault; `removeClient` on a uuid absent from the membership map changes nothing; and a
second `removeClient` of the same uuid changes nothing after the first, which has closed the
queue and deleted the entry. -/
theorem Server.detach_nonmember (calls : List Call) (h0 : Heap) (s : Server) (h : Heap)
    (hrun : run calls NewServer h0 = .ok (s, h)) (p : Ptr)
    (hnot : ∀ q, q ∈ membersOf s.channels → (h q).uuid ≠ (h p).uuid) :
    s.dispatch h (.removeClient p) = .ok (s, h) ∧
    (s.removeClient.closed = false → s.detach p h = .ok (s, h)) ∧
    (∀ (c : Channel) (id : String) (hh : Heap), id ∉ mapKeys c.clients →
      c.removeClient id hh = .ok (c, hh)) ∧
    (∀ (c c1 : Channel) (id : String) (hh h1 : Heap), c.removeClient id hh = .ok (c1, h1) →
      c1.removeClient id h1 = .ok (c1, h1) ∧ id ∉ mapKeys c1.clients) ∧
    (∀ (c : Channel) (id : String) (hh : Heap) (q : Ptr), mapGet c.clients id = some q →
      (hh q).send.closed = false →
      ∃ c1 h1, c.removeClient id hh = .ok (c1, h1) ∧ (h1 q).send.closed = true ∧
        c1.clients = mapDelete c.clients id) := by
  have ok := (run_tableOK calls NewServer s h0 h (tableOK_empty h0) hrun).1
  have hdisp : s.dispatch h (.removeClient p) = .ok (s, h) := by
    simp only [Server.dispatch]
    cases hg : s.getChannel (h p).channel with
    | none => rfl
    | some ch =>
      have hin := mapGet_some_mem _ _ _ hg
      have hch := ok.2 _ ch hin
      have habs : (h p).uuid ∉ mapKeys ch.clients := by
        intro hk
        cases hgq : mapGet ch.clients (h p).uuid with
        | none => exact (mapGet_eq_none_iff _ _).1 hgq hk
        | some q =>
          have hmq := mapGet_some_mem _ _ _ hgq
          exact hnot q (mem_membersOf s.channels _ ch _ q hin hmq) (hch.2.2.2 _ q hmq).1
      have hz : ¬ ch.ClientCount = 0 := by
        intro hz
        apply hch.2.1
        exact List.length_eq_zero.1 hz
      have hset : mapSet s.channels (h p).channel ch = s.channels := mapSet_same _ _ _ hg
      simp only [Channel.removeClient_absent ch _ h habs, hz, if_false, hset]
  refine ⟨hdisp, ?_, ?_, ?_, ?_⟩
  · intro hctl
    simp only [Server.detach, hctl, Bool.false_eq_true, if_false]
    exact hdisp
  · intro c id hh ha
    exact Channel.removeClient_absent c id hh ha
  · intro c c1 id hh h1 hr
    refine ⟨Channel.removeClient_twice c c1 id hh h1 hr, ?_⟩
    rw [(Channel.removeClient_clients c c1 id hh h1 hr).1]
    exact not_mem_mapKeys_mapDelete _ _
  · intro c id hh q hg hopen
    exact ⟨_, _, Channel.removeClient_present c id hh q hg hopen, by simp [Heap.set], rfl⟩

theorem Server.detach_nonmember_witness :
    ∃ s h, run [.Attach 0, .Attach 1, .Detach 0] NewServer demoHeap = .ok (s, h) ∧
      membersOf s.channels = [1] ∧ (h 0).send.closed = true ∧
      s.dispatch h (.removeClient 0) = .ok (s, h) :=
  ⟨_, _, rfl, rfl, rfl,
    (Server.detach_nonmember [.Attach 0, .Attach 1, .Detach 0] demoHeap _ _ rfl 0
      (by decide)).1⟩

/-! ## Closing channels -/

theorem closeAt_not_mem (h : Heap) (ps : List Ptr) (q : Ptr) (hq : q ∉ ps) :
    closeAt h ps q = h q := by
  simp [closeAt, hq]

theorem closeAt_mem_closed (h : Heap) (ps : List Ptr) (q : Ptr) (hq : q ∈ ps) :
    (closeAt h ps q).send.closed = true := by
  simp [closeAt, hq]

theorem closeAt_nil (h : Heap) : closeAt h [] = h := by
  funext q
  simp [closeAt]

theorem closeAt_set (h : Heap) (p : Ptr) (ps : List Ptr) :
    closeAt (h.set p { h p with send := { (h p).send with closed := true } }) ps
      = closeAt h (p :: ps) := by
  funext q
  by_cases he : q = p
  · subst he
    by_cases hin : q ∈ ps
    · simp [closeAt, Heap.set, hin]
    · simp [closeAt, Heap.set, hin]
  · by_cases hin : q ∈ ps
    · simp [closeAt, Heap.set, hin, he]
    · simp [closeAt, Heap.set, hin, he]

theorem closeAt_append (h : Heap) (ps qs : List Ptr) :
    closeAt (closeAt h ps) qs = closeAt h (ps ++ qs) := by
  funext q
  by_cases h1 : q ∈ ps
  · by_cases h2 : q ∈ qs
    · simp [closeAt, h1, h2]
    · simp [closeAt, h1, h2]
  · by_cases h2 : q ∈ qs
    · simp [closeAt, h1, h2]
    · simp [closeAt, h1, h2]

theorem closeAt_sameIds (h : Heap) (ps : List Ptr) : SameIds h (closeAt h ps) := by
  intro q
  by_cases hin : q ∈ ps
  · simp [closeAt, hin]
  · simp [closeAt, hin]

theorem members_nodup (h : Heap) (m : List (String × Ptr)) (hnd : (mapKeys m).Nodup)
    (hent : ∀ k p, (k, p) ∈ m → (h p).uuid = k) : (m.map Prod.snd).Nodup := by
  induction m with
  | nil => simp
  | cons e rest ih =>
    obtain ⟨k, p⟩ := e
    simp only [mapKeys, List.map_cons, List.nodup_cons] at hnd
    simp only [List.map_cons, List.nodup_cons]
    refine ⟨?_, ih hnd.2 (fun k' p' hm => hent k' p' (List.mem_cons_of_mem _ hm))⟩
    intro hin
    obtain ⟨e', he', hsnd⟩ := List.mem_map.1 hin
    obtain ⟨k', p'⟩ := e'
    simp only at hsnd
    subst hsnd
    have h1 := hent k' p' (List.mem_cons_of_mem _ he')
    have h2 := hent k p' (List.mem_cons_self _ _)
    apply hnd.1
    rw [← h2, h1]
    exact List.mem_map.2 ⟨(k', p'), he', rfl⟩

theorem closeLoop_open (m : List (String × Ptr)) (c : Channel) (h : Heap) (hc : c.clients = m)
    (hnd : (mapKeys m).Nodup) (hpn : (m.map Prod.snd).Nodup)
    (hopen : ∀ p, p ∈ m.map Prod.snd → (h p).send.closed = false) :
    closeLoop (mapKeys m) c h = .ok ({ c with clients := [] }, closeAt h (m.map Prod.snd)) := by
  induction m generalizing c h with
  | nil =>
    simp only [mapKeys, List.map_nil, closeLoop, closeAt_nil]
    rw [← hc]
  | cons e rest ih =>
    obtain ⟨k, p⟩ := e
    simp only [mapKeys, List.map_cons, List.nodup_cons] at hnd
    simp only [List.map_cons, List.nodup_cons] at hpn
    have hgk : mapGet c.clients k = some p := by
      rw [hc]
      simp [mapGet]
    have hp : (h p).send.closed = false := hopen p (by simp)
    have hdel : mapDelete c.clients k = rest := by
      rw [hc]
      simp only [mapDelete, if_true]
      exact mapDelete_absent rest k ((mapGet_eq_none_iff rest k).2 hnd.1)
    have hrc := Channel.removeClient_present c k h p hgk hp
    rw [hdel] at hrc
    simp only [mapKeys, List.map_cons, closeLoop, hrc]
    have hopen' : ∀ q, q ∈ rest.map Prod.snd →
        ((h.set p { h p with send := { (h p).send with closed := true } }) q).send.closed
          = false := by
      intro q hq
      have hne : q ≠ p := by
        intro e
        rw [e] at hq
        exact hpn.1 hq
      rw [Heap.set_other _ _ _ _ hne]
      exact hopen q (List.mem_cons_of_mem _ hq)
    have hih := ih { c with clients := rest } _ rfl hnd.2 hpn.2 hopen'
    simp only [mapKeys] at hih
    rw [hih, closeAt_set]

theorem Channel.Close_open (h : Heap) (n : String) (ch : Channel) (ok : ChannelOK h n ch)
    (hopen : ∀ p, p ∈ ch.members → (h p).send.closed = false) :
    ch.Close h = .ok ({ ch with clients := [] }, closeAt h ch.members) :=
  closeLoop_open ch.clients ch h rfl ok.2.2.1
    (members_nodup h ch.clients ok.2.2.1 (fun k p hm => (ok.2.2.2 k p hm).1)) hopen

theorem Server.removeChannel_open (s : Server) (h : Heap) (n : String) (ch : Channel)
    (ok : ChannelOK h n ch) (hopen : ∀ p, p ∈ ch.members → (h p).send.closed = false) :
    s.removeChannel ch h
      = .ok ({ s with channels := mapDelete s.channels n }, closeAt h ch.members) := by
  simp only [Server.removeChannel, Channel.Close_open h n ch ok hopen, ok.1]

theorem membersOf_mem (t : List (String × Channel)) (p : Ptr) (hp : p ∈ membersOf t) :
    ∃ n ch k, (n, ch) ∈ t ∧ (k, p) ∈ ch.clients := by
  induction t with
  | nil => simp [membersOf] at hp
  | cons e rest ih =>
    obtain ⟨n, ch⟩ := e
    simp only [membersOf, List.mem_append] at hp
    rcases hp with h1 | h1
    · obtain ⟨e', he', hsnd⟩ := List.mem_map.1 h1
      obtain ⟨k, p'⟩ := e'
      simp only at hsnd
      subst hsnd
      exact ⟨n, ch, k, List.mem_cons_self _ _, he'⟩
    · obtain ⟨n', ch', k, hm, hk⟩ := ih h1
      exact ⟨n', ch', k, List.mem_cons_of_mem _ hm, hk⟩

theorem member_channel (h : Heap) (t : List (String × Channel)) (ok : TableOK h t) (n : String)
    (ch : Channel) (hm : (n, ch) ∈ t) (p : Ptr) (hp : p ∈ ch.members) : (h p).channel = n := by
  obtain ⟨e, he, hsnd⟩ := List.mem_map.1 hp
  obtain ⟨k, p'⟩ := e
  simp only at hsnd
  subst hsnd
  exact ((ok.2 n ch hm).2.2.2 k p' he).2

theorem tableOK_tail (h : Heap) (e : String × Channel) (rest : List (String × Channel))
    (ok : TableOK h (e :: rest)) : TableOK h rest :=
  tableOK_sublist h _ _ (List.sublist_cons_self e rest) ok

theorem members_disjoint_head (h : Heap) (n : String) (ch : Channel)
    (rest : List (String × Channel)) (ok : TableOK h ((n, ch) :: rest)) (q : Ptr)
    (hq : q ∈ membersOf rest) : q ∉ ch.members := by
  intro hin
  obtain ⟨n', ch', k, hm, hk⟩ := membersOf_mem rest q hq
  have h1 := member_channel h _ ok n ch (List.mem_cons_self _ _) q hin
  have h2 := ((ok.2 n' ch' (List.mem_cons_of_mem _ hm)).2.2.2 k q hk).2
  have hnd := ok.1
  simp only [mapKeys, List.map_cons, List.nodup_cons] at hnd
  apply hnd.1
  rw [← h1, h2]
  exact List.mem_map.2 ⟨(n', ch'), hm, rfl⟩

theorem closeAll_open (t : List (String × Channel)) (s : Server) (h : Heap)
    (hs : s.channels = t) (ok : TableOK h t)
    (hopen : ∀ p, p ∈ membersOf t → (h p).send.closed = false) :
    closeAll (mapKeys t) s h = .ok ({ s with channels := [] }, closeAt h (membersOf t)) := by
  induction t generalizing s h with
  | nil =>
    simp only [mapKeys, List.map_nil, closeAll, membersOf, closeAt_nil]
    rw [← hs]
  | cons e rest ih =>
    obtain ⟨n, ch⟩ := e
    have hnd := ok.1
    simp only [mapKeys, List.map_cons, List.nodup_cons] at hnd
    have hg : mapGet s.channels n = some ch := by
      rw [hs]
      simp [mapGet]
    have hch : ChannelOK h n ch := ok.2 n ch (List.mem_cons_self _ _)
    have hopen1 : ∀ p, p ∈ ch.members → (h p).send.closed = false := by
      intro p hp
      exact hopen p (by simp [membersOf, hp])
    have hdel : mapDelete s.channels n = rest := by
      rw [hs]
      simp only [mapDelete, if_true]
      exact mapDelete_absent rest n ((mapGet_eq_none_iff rest n).2 hnd.1)
    have hrm := Server.removeChannel_open s h n ch hch hopen1
    rw [hdel] at hrm
    simp only [mapKeys, List.map_cons, closeAll, hg, hrm]
    have ok' : TableOK (closeAt h ch.members) rest :=
      tableOK_sameIds h _ _ (closeAt_sameIds h _) (tableOK_tail h _ _ ok)
    have hopen' : ∀ p, p ∈ membersOf rest → (closeAt h ch.members p).send.closed = false := by
      intro p hp
      rw [closeAt_not_mem h _ p (members_disjoint_head h n ch rest ok p hp)]
      exact hopen p (by simp [membersOf, hp])
    have hih := ih { s with channels := rest } (closeAt h ch.members) rfl ok' hopen'
    simp only [mapKeys] at hih
    rw [hih, closeAt_append]
    rfl

theorem membersOf_nodup (h : Heap) (t : List (String × Channel)) (ok : TableOK h t) :
    (membersOf t).Nodup := by
  induction t with
  | nil => simp [membersOf]
  | cons e rest ih =>
    obtain ⟨n, ch⟩ := e
    have hch : ChannelOK h n ch := ok.2 n ch (List.mem_cons_self _ _)
    simp only [membersOf]
    refine List.Nodup.append ?_ (ih (tableOK_tail h _ _ ok)) ?_
    · exact members_nodup h ch.clients hch.2.2.1 (fun k p hm => (hch.2.2.2 k p hm).1)
    · intro q h1 h2
      exact members_disjoint_head h n ch rest ok q h2 h1

/-! ## Runs in which no client is attached twice -/

theorem mem_mapSet_nodup {V : Type} (m : List (String × V)) (k : String) (v : V)
    (e : String × V) (hnd : (mapKeys m).Nodup) (he : e ∈ mapSet m k v) :
    e = (k, v) ∨ (e ∈ m ∧ e.1 ≠ k) := by
  induction m with
  | nil =>
    simp only [mapSet, List.mem_singleton] at he
    exact Or.inl he
  | cons e' rest ih =>
    obtain ⟨k', v'⟩ := e'
    simp only [mapKeys, List.map_cons, List.nodup_cons] at hnd
    by_cases hk : k' = k
    · subst hk
      simp only [mapSet, if_true, List.mem_cons] at he
      rcases he with he | he
      · exact Or.inl he
      · refine Or.inr ⟨List.mem_cons_of_mem _ he, ?_⟩
        intro e1
        apply hnd.1
        rw [← e1]
        exact List.mem_map_of_mem Prod.fst he
    · simp only [mapSet, hk, if_false, List.mem_cons] at he
      rcases he with he | he
      · refine Or.inr ⟨by rw [he]; exact List.mem_cons_self _ _, ?_⟩
        rw [he]
        exact hk
      · rcases ih hnd.2 he with h1 | ⟨h1, h2⟩
        · exact Or.inl h1
        · exact Or.inr ⟨List.mem_cons_of_mem _ h1, h2⟩

theorem sameControls_running (s s' : Server) (hc : SameControls s s') (hr : Running s) :
    Running s' := by
  obtain ⟨a, b, c, d⟩ := hc
  obtain ⟨ra, rb, rc, rd⟩ := hr
  exact ⟨by rw [a]; exact ra, by rw [b]; exact rb, by rw [c]; exact rc, by rw [d]; exact rd⟩

theorem fresh_add (s : Server) (h : Heap) (used : List Ptr) (p : Ptr) (ch : Channel)
    (hf : FreshOK h s used) (hp : p ∉ used)
    (hold : ∀ k q, (k, q) ∈ ch.clients → q ∈ membersOf s.channels)
    (ok : TableOK h (mapSet s.channels (h p).channel (ch.addClient p h))) :
    FreshOK h { s with channels := mapSet s.channels (h p).channel (ch.addClient p h) }
      (p :: used) := by
  refine ⟨ok, ?_, ?_⟩
  · intro q hq
    obtain ⟨n', ch', k, hm, hk⟩ := membersOf_mem _ q hq
    have hcase : q = p ∨ q ∈ membersOf s.channels := by
      rcases mem_mapSet _ _ _ _ hm with h1 | h1
      · cases h1
        rcases mem_mapSet _ _ _ _ hk with h2 | h2
        · cases h2
          exact Or.inl rfl
        · exact Or.inr (hold k q h2)
      · exact Or.inr (mem_membersOf _ n' ch' k q h1 hk)
    rcases hcase with h1 | h1
    · rw [h1]
      exact ⟨hf.2.2 p hp, List.mem_cons_self _ _⟩
    · exact ⟨(hf.2.1 q h1).1, List.mem_cons_of_mem _ (hf.2.1 q h1).2⟩
  · intro q hq
    exact hf.2.2 q (fun hin => hq (List.mem_cons_of_mem _ hin))

theorem Server.attach_fresh (s : Server) (h : Heap) (used : List Ptr) (p : Ptr)
    (hf : FreshOK h s used) (hctl : s.addClient.closed = false) (hp : p ∉ used) :
    ∃ s', s.attach p h = .ok (s', h) ∧ FreshOK h s' (p :: used) ∧ SameControls s s' := by
  cases hg : s.getChannel (h p).channel with
  | some ch =>
    have heq : s.attach p h = .ok
        ({ s with channels := mapSet s.channels (h p).channel (ch.addClient p h) }, h) := by
      simp only [Server.attach, hctl, Bool.false_eq_true, if_false, Server.dispatch, hg]
    refine ⟨_, heq, ?_, ⟨rfl, rfl, rfl, rfl⟩⟩
    simp only [Server.attach, hctl, Bool.false_eq_true, if_false] at heq
    have ok := (Server.dispatch_tableOK s _ h h _ hf.1 heq).1
    exact fresh_add s h used p ch hf hp
      (fun k q hk => mem_membersOf _ _ ch k q (mapGet_some_mem _ _ _ hg) hk) ok
  | none =>
    have heq : s.attach p h = .ok
        ({ s with
            channels :=
              mapSet s.channels (h p).channel ((newChannel (h p).channel).addClient p h) },
          h) := by
      simp only [Server.attach, hctl, Bool.false_eq_true, if_false, Server.dispatch, hg,
        Server.addChannel, newChannel, mapSet_mapSet]
    refine ⟨_, heq, ?_, ⟨rfl, rfl, rfl, rfl⟩⟩
    simp only [Server.attach, hctl, Bool.false_eq_true, if_false] at heq
    have ok := (Server.dispatch_tableOK s _ h h _ hf.1 heq).1
    exact fresh_add s h used p _ hf hp (fun k q hk => by simp [newChannel] at hk) ok

theorem fresh_remove (s s' : Server) (h : Heap) (used : List Ptr) (ch ch1 : Channel)
    (u : String) (q : Ptr) (hf : FreshOK h s used)
    (hin : (s.getChannel ch.name) = some ch) (hq : (u, q) ∈ ch.clients)
    (hch1 : ch1.clients = mapDelete ch.clients u)
    (ok : TableOK (h.set q { h q with send := { (h q).send with closed := true } }) s'.channels)
    (hent : ∀ n' ch', (n', ch') ∈ s'.channels →
      (n', ch') = (ch.name, ch1) ∨ ((n', ch') ∈ s.channels ∧ n' ≠ ch.name)) :
    FreshOK (h.set q { h q with send := { (h q).send with closed := true } }) s' used := by
  have hmem := mapGet_some_mem _ _ _ hin
  have hch := hf.1.2 _ ch hmem
  have hqd := hch.2.2.2 u q hq
  have hqm : q ∈ membersOf s.channels := mem_membersOf _ _ ch u q hmem hq
  refine ⟨ok, ?_, ?_⟩
  · intro q' hq'
    obtain ⟨n', ch', k, hm, hk⟩ := membersOf_mem _ q' hq'
    have hboth : q' ∈ membersOf s.channels ∧ q' ≠ q := by
      rcases hent n' ch' hm with h1 | ⟨h1, h2⟩
      · cases h1
        rw [hch1] at hk
        obtain ⟨hk1, hk2⟩ := (mem_mapDelete _ _ _).1 hk
        refine ⟨mem_membersOf _ _ ch k q' hmem hk1, ?_⟩
        intro e
        rw [e] at hk1
        exact hk2 ((hch.2.2.2 k q hk1).1.symm.trans hqd.1)
      · refine ⟨mem_membersOf _ n' ch' k q' h1 hk, ?_⟩
        intro e
        rw [e] at hk
        exact h2 (((hf.1.2 n' ch' h1).2.2.2 k q hk).2.symm.trans hqd.2)
    rw [Heap.set_other _ _ _ _ hboth.2]
    exact hf.2.1 q' hboth.1
  · intro p' hp'
    have hne : p' ≠ q := by
      intro e
      rw [e] at hp'
      exact hp' (hf.2.1 q hqm).2
    rw [Heap.set_other _ _ _ _ hne]
    exact hf.2.2 p' hp'

theorem Server.detach_fresh (s : Server) (h : Heap) (used : List Ptr) (p : Ptr)
    (hf : FreshOK h s used) (hctl : s.removeClient.closed = false) :
    ∃ s' h', s.detach p h = .ok (s', h') ∧ FreshOK h' s' used ∧ SameControls s s' := by
  have hd : s.detach p h = s.dispatch h (.removeClient p) := by
    simp only [Server.detach, hctl, Bool.false_eq_true, if_false]
  cases hg : s.getChannel (h p).channel with
  | none =>
    refine ⟨s, h, ?_, hf, ⟨rfl, rfl, rfl, rfl⟩⟩
    rw [hd]
    simp only [Server.dispatch, hg]
  | some ch =>
    have hmem := mapGet_some_mem _ _ _ hg
    have hch := hf.1.2 _ ch hmem
    have hne : ¬ ch.ClientCount = 0 := fun hz => hch.2.1 (List.length_eq_zero.1 hz)
    cases hgq : mapGet ch.clients (h p).uuid with
    | none =>
      refine ⟨s, h, ?_, hf, ⟨rfl, rfl, rfl, rfl⟩⟩
      rw [hd]
      have habs := (mapGet_eq_none_iff _ _).1 hgq
      simp only [Server.dispatch, hg, Channel.removeClient_absent ch _ h habs, hne, if_false,
        mapSet_same _ _ _ hg]
    | some q =>
      have hqc := mapGet_some_mem _ _ _ hgq
      have hqm : q ∈ membersOf s.channels := mem_membersOf _ _ ch _ q hmem hqc
      have hrc := Channel.removeClient_present ch _ h q hgq (hf.2.1 q hqm).1
      have hin : s.getChannel ch.name = some ch := by rw [hch.1]; exact hg
      by_cases hz : (mapDelete ch.clients (h p).uuid).length = 0
      · have hnil : mapDelete ch.clients (h p).uuid = [] := List.length_eq_zero.1 hz
        have heq : s.dispatch h (.removeClient p) = .ok
            ({ s with
                channels :=
                  mapDelete (mapSet s.channels (h p).channel { ch with clients := [] }) ch.name },
              h.set q { h q with send := { (h q).send with closed := true } }) := by
          simp only [Server.dispatch, hg, hrc, Channel.ClientCount, hnil, List.length_nil,
            if_true, Server.removeChannel, Channel.Close, mapKeys, List.map_nil, closeLoop]
        refine ⟨_, _, hd.trans heq, ?_, ⟨rfl, rfl, rfl, rfl⟩⟩
        have ok := (Server.dispatch_tableOK s _ h _ _ hf.1 heq).1
        refine fresh_remove s _ h used ch { ch with clients := [] } (h p).uuid q hf hin hqc
          hnil.symm ok ?_
        intro n' ch' hm
        obtain ⟨hm1, hm2⟩ := (mem_mapDelete _ _ _).1 hm
        rcases mem_mapSet _ _ _ _ hm1 with h1 | h1
        · cases h1
          exact absurd hch.1.symm hm2
        · exact Or.inr ⟨h1, hm2⟩
      · have heq : s.dispatch h (.removeClient p) = .ok
            ({ s with
                channels :=
                  mapSet s.channels (h p).channel
                    { ch with clients := mapDelete ch.clients (h p).uuid } },
              h.set q { h q with send := { (h q).send with closed := true } }) := by
          simp only [Server.dispatch, hg, hrc, Channel.ClientCount, hz, if_false]
        refine ⟨_, _, hd.trans heq, ?_, ⟨rfl, rfl, rfl, rfl⟩⟩
        have ok := (Server.dispatch_tableOK s _ h _ _ hf.1 heq).1
        refine fresh_remove s _ h used ch { ch with clients := mapDelete ch.clients (h p).uuid }
          (h p).uuid q hf hin hqc rfl ok ?_
        intro n' ch' hm
        rcases mem_mapSet_nodup _ _ _ _ hf.1.1 hm with h1 | ⟨h1, h2⟩
        · left
          rw [h1, hch.1]
        · right
          refine ⟨h1, ?_⟩
          rw [hch.1]
          exact h2

theorem Server.closeChannel_fresh (s : Server) (h : Heap) (used : List Ptr) (name : String)
    (hf : FreshOK h s used) (hctl : s.closeChannel.closed = false) :
    ∃ s' h', s.CloseChannel name h = .ok (s', h') ∧ FreshOK h' s' used ∧
      SameControls s s' := by
  have hd : s.CloseChannel name h = s.dispatch h (.closeChannel name) := by
    simp only [Server.CloseChannel, hctl, Bool.false_eq_true, if_false]
  cases hg : s.getChannel name with
  | none =>
    refine ⟨s, h, ?_, hf, ⟨rfl, rfl, rfl, rfl⟩⟩
    rw [hd]
    simp only [Server.dispatch, hg]
  | some ch =>
    have hmem := mapGet_some_mem _ _ _ hg
    have hch := hf.1.2 _ ch hmem
    have hopen : ∀ p, p ∈ ch.members → (h p).send.closed = false := by
      intro p hp
      obtain ⟨e, he, hsnd⟩ := List.mem_map.1 hp
      obtain ⟨k, p'⟩ := e
      simp only at hsnd
      subst hsnd
      exact (hf.2.1 p' (mem_membersOf _ _ ch k p' hmem he)).1
    have hused : ∀ p, p ∈ ch.members → p ∈ used := by
      intro p hp
      obtain ⟨e, he, hsnd⟩ := List.mem_map.1 hp
      obtain ⟨k, p'⟩ := e
      simp only at hsnd
      subst hsnd
      exact (hf.2.1 p' (mem_membersOf _ _ ch k p' hmem he)).2
    have heq : s.dispatch h (.closeChannel name) = .ok
        ({ s with channels := mapDelete s.channels name }, closeAt h ch.members) := by
      simp only [Server.dispatch, hg, Server.removeChannel_open s h name ch hch hopen]
    refine ⟨_, _, hd.trans heq, ?_, ⟨rfl, rfl, rfl, rfl⟩⟩
    refine ⟨(Server.dispatch_tableOK s _ h _ _ hf.1 heq).1, ?_, ?_⟩
    · intro q hq
      obtain ⟨n', ch', k, hm, hk⟩ := membersOf_mem _ q hq
      obtain ⟨hm1, hm2⟩ := (mem_mapDelete _ _ _).1 hm
      have hqold : q ∈ membersOf s.channels := mem_membersOf _ n' ch' k q hm1 hk
      have hnot : q ∉ ch.members := by
        intro hqin
        have h1 := member_channel h _ hf.1 name ch hmem q hqin
        have h2 := ((hf.1.2 n' ch' hm1).2.2.2 k q hk).2
        exact hm2 (h2.symm.trans h1)
      rw [closeAt_not_mem h _ q hnot]
      exact hf.2.1 q hqold
    · intro q hq
      rw [closeAt_not_mem h _ q (fun hin => hq (hused q hin))]
      exact hf.2.2 q hq

theorem Server.close_fresh (s : Server) (h : Heap) (used : List Ptr) (hf : FreshOK h s used) :
    s.close h = .ok ({ s with channels := [] }, closeAt h (membersOf s.channels)) ∧
      FreshOK (closeAt h (membersOf s.channels)) { s with channels := [] } used := by
  refine ⟨closeAll_open s.channels s h rfl hf.1 (fun p hp => (hf.2.1 p hp).1), ?_, ?_, ?_⟩
  · exact ⟨by simp [mapKeys], fun n ch hm => by simp at hm⟩
  · intro p hp
    simp [membersOf] at hp
  · intro q hq
    rw [closeAt_not_mem h _ q (fun hin => hq (hf.2.1 q hin).2)]
    exact hf.2.2 q hq

theorem run_fresh (calls : List Call) (s : Server) (h : Heap) (used : List Ptr)
    (hf : FreshOK h s used) (hrun : Running s) (hns : Call.Shutdown ∉ calls)
    (honce : (attached calls).Nodup) (hnew : ∀ p, p ∈ attached calls → p ∉ used) :
    ∃ s' h' used', run calls s h = .ok (s', h') ∧ FreshOK h' s' used' ∧ Running s' := by
  induction calls generalizing s h used with
  | nil => exact ⟨s, h, used, rfl, hf, hrun⟩
  | cons c rest ih =>
    have hns' : Call.Shutdown ∉ rest := fun hin => hns (List.mem_cons_of_mem _ hin)
    cases c with
    | Attach p =>
      simp only [attached, List.nodup_cons] at honce
      have hp : p ∉ used := hnew p (by simp [attached])
      obtain ⟨s1, heq, hf1, hc1⟩ := Server.attach_fresh s h used p hf hrun.1 hp
      have hnew' : ∀ q, q ∈ attached rest → q ∉ p :: used := by
        intro q hq hin
        rcases List.mem_cons.1 hin with h1 | h1
        · rw [h1] at hq
          exact honce.1 hq
        · exact hnew q (by simp [attached, hq]) h1
      obtain ⟨s', h', used', hr, hf', hrun'⟩ :=
        ih s1 h (p :: used) hf1 (sameControls_running s s1 hc1 hrun) hns' honce.2 hnew'
      refine ⟨s', h', used', ?_, hf', hrun'⟩
      simp only [run, Server.call, heq]
      exact hr
    | Detach p =>
      simp only [attached] at honce hnew
      obtain ⟨s1, h1, heq, hf1, hc1⟩ := Server.detach_fresh s h used p hf hrun.2.1
      obtain ⟨s', h', used', hr, hf', hrun'⟩ :=
        ih s1 h1 used hf1 (sameControls_running s s1 hc1 hrun) hns' honce hnew
      refine ⟨s', h', used', ?_, hf', hrun'⟩
      simp only [run, Server.call, heq]
      exact hr
    | CloseChannel name =>
      simp only [attached] at honce hnew
      obtain ⟨s1, h1, heq, hf1, hc1⟩ := Server.closeChannel_fresh s h used name hf hrun.2.2.2
      obtain ⟨s', h', used', hr, hf', hrun'⟩ :=
        ih s1 h1 used hf1 (sameControls_running s s1 hc1 hrun) hns' honce hnew
      refine ⟨s', h', used', ?_, hf', hrun'⟩
      simp only [run, Server.call, heq]
      exact hr
    | Restart =>
      simp only [attached] at honce hnew
      obtain ⟨heq, hf1⟩ := Server.close_fresh s h used hf
      obtain ⟨s', h', used', hr, hf', hrun'⟩ :=
        ih _ _ used hf1 hrun hns' honce hnew
      refine ⟨s', h', used', ?_, hf', hrun'⟩
      simp only [run, Server.call, Server.Restart, heq]
      exact hr
    | Shutdown => exact absurd (List.mem_cons_self _ _) hns

theorem Server.Shutdown_fresh (s : Server) (h : Heap) (used : List Ptr) (hf : FreshOK h s used)
    (hrun : Running s) :
    s.Shutdown h = .ok
      ({ channels := [], addClient := ⟨true⟩, removeClient := ⟨true⟩, shutdown := ⟨true⟩,
         closeChannel := ⟨true⟩ },
        closeAt h (membersOf s.channels)) := by
  obtain ⟨ha, hr, hs, hc⟩ := hrun
  simp only [Server.Shutdown, hs, Bool.false_eq_true, if_false, Server.dispatch,
    (Server.close_fresh s h used hf).1, Server.closeControls, CtlChan.close, ha, hr, hc]

theorem attached_cons (c : Call) (rest : List Call) :
    attached (c :: rest) = attached [c] ++ attached rest := by
  cases c <;> rfl

theorem freshOK_channels (s s' : Server) (h : Heap) (used : List Ptr)
    (hc : s'.channels = s.channels) (hf : FreshOK h s used) : FreshOK h s' used := by
  unfold FreshOK at *
  rw [hc]
  exact hf

theorem Server.call_freshOK (s s1 : Server) (h h1 : Heap) (used : List Ptr) (c : Call)
    (hf : FreshOK h s used) (hnew : ∀ p, p ∈ attached [c] → p ∉ used)
    (hr : s.call h c = .ok (s1, h1)) : FreshOK h1 s1 (attached [c] ++ used) := by
  cases c with
  | Attach p =>
    cases hctl : s.addClient.closed with
    | true => simp [Server.call, Server.attach, hctl] at hr
    | false =>
      obtain ⟨s', heq, hf', _⟩ :=
        Server.attach_fresh s h used p hf hctl (hnew p (by simp [attached]))
      simp only [Server.call, heq, Except.ok.injEq, Prod.mk.injEq] at hr
      rw [← hr.1, ← hr.2]
      exact hf'
  | Detach p =>
    cases hctl : s.removeClient.closed with
    | true => simp [Server.call, Server.detach, hctl] at hr
    | false =>
      obtain ⟨s', h', heq, hf', _⟩ := Server.detach_fresh s h used p hf hctl
      simp only [Server.call, heq, Except.ok.injEq, Prod.mk.injEq] at hr
      rw [← hr.1, ← hr.2]
      exact hf'
  | CloseChannel name =>
    cases hctl : s.closeChannel.closed with
    | true => simp [Server.call, Server.CloseChannel, hctl] at hr
    | false =>
      obtain ⟨s', h', heq, hf', _⟩ := Server.closeChannel_fresh s h used name hf hctl
      simp only [Server.call, heq, Except.ok.injEq, Prod.mk.injEq] at hr
      rw [← hr.1, ← hr.2]
      exact hf'
  | Restart =>
    obtain ⟨heq, hf'⟩ := Server.close_fresh s h used hf
    simp only [Server.call, Server.Restart, heq, Except.ok.injEq, Prod.mk.injEq] at hr
    rw [← hr.1, ← hr.2]
    exact hf'
  | Shutdown =>
    cases hctl : s.shutdown.closed with
    | true => simp [Server.call, Server.Shutdown, hctl] at hr
    | false =>
      obtain ⟨heq, hf'⟩ := Server.close_fresh s h used hf
      simp only [Server.call, Server.Shutdown, hctl, Bool.false_eq_true, if_false,
        Server.dispatch, heq] at hr
      cases hcc : Server.closeControls { s with channels := [] } with
      | error e => simp [hcc] at hr
      | ok s2 =>
        simp only [hcc, Except.ok.injEq, Prod.mk.injEq] at hr
        rw [← hr.1, ← hr.2]
        exact freshOK_channels _ s2 _ used (Server.closeControls_channels _ s2 hcc) hf'

theorem run_freshOK (calls : List Call) (s s1 : Server) (h h1 : Heap) (used : List Ptr)
    (hf : FreshOK h s used) (honce : (attached calls).Nodup)
    (hnew : ∀ p, p ∈ attached calls → p ∉ used) (hr : run calls s h = .ok (s1, h1)) :
    ∃ used1, FreshOK h1 s1 used1 := by
  induction calls generalizing s h used with
  | nil =>
    simp only [run, Except.ok.injEq, Prod.mk.injEq] at hr
    rw [← hr.1, ← hr.2]
    exact ⟨used, hf⟩
  | cons c rest ih =>
    rw [attached_cons] at honce hnew
    simp only [run] at hr
    cases hc : s.call h c with
    | error e => simp [hc] at hr
    | ok r =>
      obtain ⟨s2, h2⟩ := r
      simp only [hc] at hr
      have hf2 := Server.call_freshOK s s2 h h2 used c hf
        (fun p hp => hnew p (List.mem_append_left _ hp)) hc
      refine ih s2 h2 (attached [c] ++ used) hf2 (List.Nodup.of_append_right honce) ?_ hr
      intro p hp hin
      rcases List.mem_append.1 hin with h3 | h3
      · exact (List.nodup_append.1 honce).2.2 h3 hp
      · exact hnew p (List.mem_append_right _ hp) h3

/-- C6: after any sequence of `Attach`, `Detach`, `CloseChannel` and `Restart` operations on
a new server in which no client is attached twice (clients as `newClient` makes them, queues
open), the run returns, and processing `Shutdown` then returns as well: every client that was
a member of some channel had an open queue and has a closed one afterwards, each client is a
member once so its queue is closed by one `close` (a second one would be the fault branch),
no other client object changes, and afterwards the topic table is empty, `Channels()` is
empty and `ClientCount()` is 0. -/
theorem Server.Shutdown_closes_members (calls : List Call) (h0 : Heap)
    (hopen : ∀ p, (h0 p).send.closed = false) (hns : Call.Shutdown ∉ calls)
    (honce : (attached calls).Nodup) :
    ∃ s h, run calls NewServer h0 = .ok (s, h) ∧
      ∃ s' h', s.Shutdown h = .ok (s', h') ∧
        (∀ p, p ∈ membersOf s.channels →
          (h p).send.closed = false ∧ (h' p).send.closed = true) ∧
        (membersOf s.channels).Nodup ∧
        (∀ p, p ∉ membersOf s.channels → h' p = h p) ∧
        s'.channels = [] ∧ s'.Channels = [] ∧ s'.ClientCount = 0 := by
  have hf0 : FreshOK h0 NewServer [] :=
    ⟨tableOK_empty h0, fun p hp => by simp [NewServer, membersOf] at hp, fun p _ => hopen p⟩
  have hrun0 : Running NewServer := ⟨rfl, rfl, rfl, rfl⟩
  obtain ⟨s, h, used, hr, hf, hrun⟩ :=
    run_fresh calls NewServer h0 [] hf0 hrun0 hns honce (fun p _ hin => by simp at hin)
  refine ⟨s, h, hr, _, _, Server.Shutdown_fresh s h used hf hrun, ?_, ?_, ?_, rfl, rfl, rfl⟩
  · intro p hp
    exact ⟨(hf.2.1 p hp).1, closeAt_mem_closed h _ p hp⟩
  · exact membersOf_nodup h s.channels hf.1
  · intro p hp
    exact closeAt_not_mem h _ p hp

theorem Server.Shutdown_closes_members_witness :
    ∃ s h, run [.Attach 0, .Attach 1, .Detach 0, .Attach 2] NewServer demoHeap = .ok (s, h) ∧
      ∃ s' h', s.Shutdown h = .ok (s', h') ∧
        (∀ p, p ∈ membersOf s.channels →
          (h p).send.closed = false ∧ (h' p).send.closed = true) ∧
        (membersOf s.channels).Nodup ∧
        (∀ p, p ∉ membersOf s.channels → h' p = h p) ∧
        s'.channels = [] ∧ s'.Channels = [] ∧ s'.ClientCount = 0 :=
  Server.Shutdown_closes_members [.Attach 0, .Attach 1, .Detach 0, .Attach 2] demoHeap
    (fun p => by by_cases hp : p = 0 <;> simp [demoHeap, hp, newClient, MsgChan.make])
    (by decide) (by decide)

/-! ## sse.go: `SendBroadcastMessage` -/

/-- C2: `Server.SendBroadcastMessage(name, msg)` returns `errChannelWithoutClients` exactly
when `name` is not a key of the topic table, and then the server (topic table, memberships,
last-event-ids) and the heap of clients (queues, last-event-ids) are returned as they were;
when `name` is a key the call never returns an error value, and it returns nil whenever the
queues of the members of that channel are open (a send on a closed queue is a Go panic, not a
return), which is so in every state that a run from `NewServer` reaches without attaching a
client twice. -/
theorem Server.SendBroadcastMessage_noClients (s : Server) (name : String) (msg : Message)
    (h : Heap) :
    ((∃ s' h', s.SendBroadcastMessage name msg h = .ok (some .errChannelWithoutClients, s', h'))
      ↔ name ∉ s.Channels) ∧
    (name ∉ s.Channels →
      s.SendBroadcastMessage name msg h = .ok (some .errChannelWithoutClients, s, h)) ∧
    (name ∈ s.Channels → ∀ r, s.SendBroadcastMessage name msg h = .ok r → r.1 = none) ∧
    (name ∈ s.Channels →
      (∀ ch k p, s.getChannel name = some ch → (k, p) ∈ ch.clients →
        (h p).send.closed = false) →
      ∃ s' h', s.SendBroadcastMessage name msg h = .ok (none, s', h')) ∧
    (∀ calls h0, (∀ p, (h0 p).send.closed = false) → (attached calls).Nodup →
      run calls NewServer h0 = .ok (s, h) → name ∈ s.Channels →
      ∃ s' h', s.SendBroadcastMessage name msg h = .ok (none, s', h')) := by
  have hnil : ∀ ch, s.getChannel name = some ch →
      (∀ k p, (k, p) ∈ ch.clients → (h p).send.closed = false) →
      ∃ s' h', s.SendBroadcastMessage name msg h = .ok (none, s', h') := by
    intro ch hg hopen
    have hop : ∀ p, p ∈ ch.clients.map Prod.snd → (h p).send.closed = false := by
      intro p hp
      obtain ⟨e, he, hep⟩ := List.mem_map.1 hp
      obtain ⟨k, p'⟩ := e
      simp only at hep
      subst hep
      exact hopen k p' he
    obtain ⟨h', hd, _⟩ := deliver_open msg _ h hop
    refine ⟨{ s with channels := mapSet s.channels name { ch with lastEventID := msg.id } },
      h', ?_⟩
    simp only [Server.SendBroadcastMessage, hg, Channel.SendBroadcastMessage,
      sendAll_eq_deliver, hd]
  have hreach : ∀ calls h0, (∀ p, (h0 p).send.closed = false) → (attached calls).Nodup →
      run calls NewServer h0 = .ok (s, h) → name ∈ s.Channels →
      ∃ s' h', s.SendBroadcastMessage name msg h = .ok (none, s', h') := by
    intro calls h0 hfresh honce hrun hin
    have hf0 : FreshOK h0 NewServer [] :=
      ⟨tableOK_empty h0, fun p hp => by simp [NewServer, membersOf] at hp, fun p _ => hfresh p⟩
    obtain ⟨used, hf⟩ := run_freshOK calls NewServer s h0 h [] hf0 honce
      (fun p _ hin => by simp at hin) hrun
    cases hg : s.getChannel name with
    | none => exact absurd hin ((mapGet_eq_none_iff _ _).1 hg)
    | some ch =>
      exact hnil ch hg (fun k p hm =>
        (hf.2.1 p (mem_membersOf _ name ch k p (mapGet_some_mem _ _ _ hg) hm)).1)
  have hkey : s.getChannel name = none ↔ name ∉ s.Channels := mapGet_eq_none_iff _ _
  cases hg : s.getChannel name with
  | none =>
    have hn : name ∉ s.Channels := hkey.1 hg
    refine ⟨⟨fun _ => hn, fun _ => ⟨s, h, ?_⟩⟩, fun _ => ?_, fun hin => absurd hin hn,
      fun hin => absurd hin hn, hreach⟩
    · simp [Server.SendBroadcastMessage, hg]
    · simp [Server.SendBroadcastMessage, hg]
  | some ch =>
    have hin : name ∈ s.Channels := by
      by_contra hc
      rw [hkey.2 hc] at hg
      cases hg
    refine ⟨⟨?_, fun hn => absurd hin hn⟩, fun hn => absurd hin hn, fun _ r hr => ?_,
      fun _ hopen => hnil ch hg (fun k p hm => hopen ch k p rfl hm), hreach⟩
    · rintro ⟨s', h', hr⟩
      simp only [Server.SendBroadcastMessage, hg] at hr
      cases hb : ch.SendBroadcastMessage msg h with
      | error e => simp [hb] at hr
      | ok r => simp [hb] at hr
    · simp only [Server.SendBroadcastMessage, hg] at hr
      cases hb : ch.SendBroadcastMessage msg h with
      | error e => simp [hb] at hr
      | ok r' =>
        simp only [hb, Except.ok.injEq] at hr
        rw [← hr]

theorem Server.SendBroadcastMessage_noClients_witness :
    "news" ∉ NewServer.Channels ∧
    NewServer.SendBroadcastMessage "news" (NewMessage "1" "hello" "") demoHeap
      = .ok (some .errChannelWithoutClients, NewServer, demoHeap) :=
  ⟨by decide,
    (Server.SendBroadcastMessage_noClients NewServer "news" (NewMessage "1" "hello" "")
      demoHeap).2.1 (by decide)⟩

end Sse
